import Mathlib

/-!
LogClient (src/common/LogClient.cc)

A shallow embedding of the cluster-log client: the pending queue, the two
counters `last_log` / `last_log_sent`, and the operations `do_log`,
`reset_session`, `are_pending`, `_get_mon_log_message` and `handle_log_ack`.

Machine integers: `version_t` is an unsigned 64-bit integer and `unsigned` is
an unsigned 32-bit integer; both are modelled as `Nat` with explicit reduction
modulo `2^64` / `2^32` at every arithmetic operation of the source.
-/

/-- Modulus of `version_t` / `size_t` arithmetic (unsigned 64 bit). -/
def U64 : Nat := 2 ^ 64

/-- Modulus of `unsigned` arithmetic (unsigned 32 bit). -/
def U32 : Nat := 2 ^ 32

/-- Modelled from the spec: the severity enumeration `clog_type` is declared in
a header that is not part of the source file; the spec describes it as a small
closed set of severity levels (DEBUG, INFO, WARN, ERROR). -/
inductive clog_type where
  | CLOG_DEBUG
  | CLOG_INFO
  | CLOG_WARN
  | CLOG_ERROR
deriving DecidableEq, Repr

/-- One cluster-log record, with the fields `do_log` fills in.  The identity
`who` and the clock reading `stamp` are plain tokens supplied by the
messenger and the clock. -/
structure LogEntry where
  who : Nat
  stamp : Nat
  seq : Nat
  prio : clog_type
  msg : String
  facility : String
deriving DecidableEq, Repr

/-- The configuration values (`cct->_conf->...`) the source reads.  They are
read at call time, so every operation takes the configuration as an argument. -/
structure Config where
  clog_to_monitors : Bool
  clog_to_syslog : Bool
  clog_to_syslog_facility : String
  clog_to_syslog_level : String
  mon_client_max_log_entries_per_message : Int
deriving DecidableEq, Repr

/-- What `do_log` reads from the messenger and the clock. -/
structure Env where
  myinst : Nat
  now : Nat
  myname_is_mon : Bool
deriving DecidableEq, Repr

/-- The acknowledgment message `MLogAck`: its facility and the last acknowledged seq. -/
structure MLogAck where
  facility : String
  last : Nat
deriving DecidableEq, Repr

/-- The `Message *` returned by `_get_mon_log_message`: `NULL`, or an `MLog`
carrying the copied entries. -/
inductive Message where
  | NULL
  | MLog (entries : List LogEntry)
deriving DecidableEq, Repr

/-- The assertions of the source; tripping one aborts the process. -/
inductive Fault where
  | myname_not_mon
  | num_unsent_exceeds_queue
  | scan_reached_end
  | copy_reached_end
deriving DecidableEq, Repr

/-- Outcome of an operation that contains assertions. -/
inductive Outcome (α : Type) where
  | ok (a : α)
  | abort (f : Fault)
deriving DecidableEq, Repr

/-- The mutable members of `LogClient`. -/
structure LogClient where
  is_mon : Bool
  last_log_sent : Nat
  last_log : Nat
  log_queue : List LogEntry
  log_facility : String
  log_level : String
  log_to_syslog : Bool
deriving DecidableEq, Repr

namespace LogClient

/-- The first constructor `LogClient::LogClient`: counters at zero, empty
queue, syslog settings taken from the configuration. -/
def create (cfg : Config) (flag_mon : Bool) : LogClient :=
  { is_mon := flag_mon
    last_log_sent := 0
    last_log := 0
    log_queue := []
    log_facility := cfg.clog_to_syslog_facility
    log_level := cfg.clog_to_syslog_level
    log_to_syslog := cfg.clog_to_syslog }

/-- The second constructor `LogClient::LogClient`: syslog settings given
explicitly. -/
def create_with (flag_mon : Bool) (log_to_syslog : Bool) (syslog_fac syslog_lvl : String) :
    LogClient :=
  { is_mon := flag_mon
    last_log_sent := 0
    last_log := 0
    log_queue := []
    log_facility := syslog_fac
    log_level := syslog_lvl
    log_to_syslog := log_to_syslog }

/-- Modelled from the spec: the accessor `get_log_facility` is defined in the
header, which is not part of the source file; the spec calls its value the
facility the client is currently using, i.e. the member `log_facility`. -/
def get_log_facility (s : LogClient) : String := s.log_facility

/-- Modelled from the spec: the accessor `must_log_to_syslog` is defined in the
header, which is not part of the source file; the spec says local mirroring
happens when it is enabled, i.e. when the member `log_to_syslog` is set. -/
def must_log_to_syslog (s : LogClient) : Bool := s.log_to_syslog

/-- The scan loop `while (p->seq < last_log_sent) { ++p; assert(p != end); }`,
with the iterator `p` represented by the suffix of the queue it points at. -/
def scan (last_log_sent : Nat) : List LogEntry → Outcome (List LogEntry)
  | [] => .abort .scan_reached_end
  | e :: rest =>
    if e.seq < last_log_sent then
      match rest with
      | [] => .abort .scan_reached_end
      | e2 :: rest2 => scan last_log_sent (e2 :: rest2)
    else .ok (e :: rest)

/-- The copy loop `while (num_send--) { assert(p != end); o.push_back(*p);
last_log_sent = p->seq; ++p; }`; returns the batch `o` and the new
`last_log_sent`. -/
def copy : Nat → List LogEntry → List LogEntry → Nat → Outcome (List LogEntry × Nat)
  | 0, _, o, last_log_sent => .ok (o, last_log_sent)
  | _ + 1, [], _, _ => .abort .copy_reached_end
  | num_send + 1, e :: rest, o, _ => copy num_send rest (o ++ [e]) e.seq

/-- The value of `unsigned num_unsent = last_log - last_log_sent`. -/
def num_unsent (s : LogClient) : Nat :=
  ((s.last_log + U64 - s.last_log_sent % U64) % U64) % U32

/-- The value of `num_send`: the cap applies only when it is positive. -/
def num_send (cfg : Config) (s : LogClient) : Nat :=
  if cfg.mon_client_max_log_entries_per_message > 0 then
    min (num_unsent s) cfg.mon_client_max_log_entries_per_message.toNat
  else num_unsent s

/-- `LogClient::_get_mon_log_message`: the next batch, or `NULL`. -/
def _get_mon_log_message (cfg : Config) (s : LogClient) : Outcome (Message × LogClient) :=
  if s.log_queue = [] then .ok (.NULL, s)
  else if s.last_log_sent = s.last_log then .ok (.NULL, s)
  else if ¬ (num_unsent s ≤ s.log_queue.length) then .abort .num_unsent_exceeds_queue
  else
    match scan s.last_log_sent s.log_queue with
    | .abort f => .abort f
    | .ok p =>
      match copy (num_send cfg s) p [] s.last_log_sent with
      | .abort f => .abort f
      | .ok (o, sent) => .ok (.MLog o, { s with last_log_sent := sent })

/-- `LogClient::get_mon_log_message`: the locked wrapper. -/
def get_mon_log_message (cfg : Config) (s : LogClient) : Outcome (Message × LogClient) :=
  _get_mon_log_message cfg s

/-- `LogClient::are_pending`. -/
def are_pending (s : LogClient) : Bool := decide (s.last_log > s.last_log_sent)

/-- `LogClient::reset_session`: `last_log_sent = last_log - log_queue.size()`
in unsigned 64-bit arithmetic. -/
def reset_session (s : LogClient) : LogClient :=
  { s with last_log_sent := (s.last_log + U64 - s.log_queue.length % U64) % U64 }

/-- The erase loop of `handle_log_ack`: drop entries from the head until the
first one with `seq > last`. -/
def erase_acked (last : Nat) : List LogEntry → List LogEntry
  | [] => []
  | entry :: rest => if entry.seq > last then entry :: rest else erase_acked last rest

/-- `LogClient::handle_log_ack`: returns the boolean result and the new state. -/
def handle_log_ack (cfg : Config) (s : LogClient) (m : MLogAck) : Bool × LogClient :=
  let facility := if m.facility = "" then cfg.clog_to_syslog_facility else m.facility
  if facility = get_log_facility s then (false, s)
  else (true, { s with log_queue := erase_acked m.last s.log_queue })

/-- What one `do_log` call does besides changing the state: the entry it
created, whether it was mirrored to syslog, and the message handed to the
messenger in self-addressed mode (if any). -/
structure LogOut where
  entry : LogEntry
  mirrored : Bool
  sent : Option Message
deriving DecidableEq, Repr

/-- `LogClient::do_log(clog_type, const std::string&)`. -/
def do_log (cfg : Config) (env : Env) (s : LogClient) (prio : clog_type) (msg : String) :
    Outcome (LogClient × LogOut) :=
  let seq := (s.last_log + 1) % U64
  let e : LogEntry :=
    { who := env.myinst, stamp := env.now, seq := seq, prio := prio, msg := msg,
      facility := get_log_facility s }
  let s1 : LogClient := { s with last_log := seq }
  let mirrored := must_log_to_syslog s
  if cfg.clog_to_monitors then
    let s2 : LogClient := { s1 with log_queue := s1.log_queue ++ [e] }
    if s.is_mon then
      if ¬ env.myname_is_mon then .abort .myname_not_mon
      else
        match _get_mon_log_message cfg s2 with
        | .abort f => .abort f
        | .ok (log, s3) => .ok (s3, { entry := e, mirrored := mirrored, sent := some log })
    else .ok (s2, { entry := e, mirrored := mirrored, sent := none })
  else .ok (s1, { entry := e, mirrored := mirrored, sent := none })

end LogClient

/-- One call made by the driver or a producer, with the configuration (and
environment) in force at the time of the call. -/
inductive Op where
  | log (cfg : Config) (env : Env) (prio : clog_type) (msg : String)
  | drain (cfg : Config)
  | ack (cfg : Config) (m : MLogAck)
  | reset
deriving DecidableEq, Repr

/-- What a call returned. -/
inductive Event where
  | logged (out : LogClient.LogOut)
  | drained (m : Message)
  | acked (accepted : Bool)
  | reset
deriving DecidableEq, Repr

/-- One call on a state. -/
def step (s : LogClient) : Op → Outcome (LogClient × Event)
  | .log cfg env prio msg =>
    match LogClient.do_log cfg env s prio msg with
    | .abort f => .abort f
    | .ok (s1, out) => .ok (s1, .logged out)
  | .drain cfg =>
    match LogClient.get_mon_log_message cfg s with
    | .abort f => .abort f
    | .ok (m, s1) => .ok (s1, .drained m)
  | .ack cfg m =>
    let r := LogClient.handle_log_ack cfg s m
    .ok (r.2, .acked r.1)
  | .reset => .ok (LogClient.reset_session s, .reset)

/-- A sequence of calls, collecting what each returned; an assertion failure
aborts the run. -/
def run (s : LogClient) : List Op → Outcome (LogClient × List Event)
  | [] => .ok (s, [])
  | op :: ops =>
    match step s op with
    | .abort f => .abort f
    | .ok (s1, ev) =>
      match run s1 ops with
      | .abort f => .abort f
      | .ok (s2, evs) => .ok (s2, ev :: evs)

/-! ## Notions used to state the properties -/

/-- The seqs of a list of entries, head first. -/
def seqs (q : List LogEntry) : List Nat := q.map LogEntry.seq

/-- The queue holds consecutive seqs ending at `last`: its seqs are exactly
`last + 1 - length, ..., last`. -/
def ConsecutiveEndingAt (q : List LogEntry) (last : Nat) : Prop :=
  q.length ≤ last + 1 ∧ seqs q = List.range' (last + 1 - q.length) q.length

instance (q : List LogEntry) (last : Nat) : Decidable (ConsecutiveEndingAt q last) := by
  unfold ConsecutiveEndingAt
  infer_instance

/-- A well-formed state: the queue holds consecutive seqs ending at
`last_log` (= nextSeq - 1), and `oldest.seq - 1 ≤ last_log_sent ≤ last_log`. -/
def WellFormed (s : LogClient) : Prop :=
  ConsecutiveEndingAt s.log_queue s.last_log ∧
  s.last_log_sent ≤ s.last_log ∧
  ∀ e ∈ s.log_queue.head?, e.seq ≤ s.last_log_sent + 1

instance (s : LogClient) : Decidable (WellFormed s) := by
  unfold WellFormed
  infer_instance

/-- Whether a call is a `log()` call. -/
def Op.is_log : Op → Bool
  | .log _ _ _ _ => true
  | _ => false

/-- The number of `log()` calls in a sequence of calls. -/
def num_logs (ops : List Op) : Nat := (ops.filter Op.is_log).length

/-- Monitor delivery (`clog_to_monitors`) is enabled at the call, if it is a
`log()` call. -/
def Op.monitors_on : Op → Bool
  | .log cfg _ _ _ => cfg.clog_to_monitors
  | _ => true

/-- The seq of the entry a call created, if it was a `log()` call. -/
def Event.logged_seq : Event → Option Nat
  | .logged out => some out.entry.seq
  | _ => none

/-- The seqs assigned by the `log()` calls of a run, in call order. -/
def logged_seqs (evs : List Event) : List Nat := evs.filterMap Event.logged_seq

/-- The seqs of the batch a call returned: `none` unless the call was a drain
that returned a message. -/
def Event.batch_seqs : Event → Option (List Nat)
  | .drained (.MLog entries) => some (seqs entries)
  | _ => none

/-! ## Concrete configurations and states used in the examples -/

/-- A configuration with monitor delivery on and the given cap. -/
def cfg_cap (cap : Int) : Config :=
  { clog_to_monitors := true
    clog_to_syslog := false
    clog_to_syslog_facility := "daemon"
    clog_to_syslog_level := "info"
    mon_client_max_log_entries_per_message := cap }

/-- An environment of a non-monitor daemon. -/
def env_osd : Env := { myinst := 7, now := 100, myname_is_mon := false }

/-- A fresh client that is not self-addressed. -/
def fresh_osd : LogClient := LogClient.create (cfg_cap 3) false

/-- One `log()` call with monitor delivery on and the given cap configured. -/
def log_op (cap : Int) : Op := .log (cfg_cap cap) env_osd .CLOG_INFO "event"

/-- An entry as `log_op` creates it on `fresh_osd`, with the given seq. -/
def entry_at (seq : Nat) : LogEntry :=
  { who := 7, stamp := 100, seq := seq, prio := .CLOG_INFO, msg := "event", facility := "daemon" }

/-- A state with the entries of the given seqs queued. -/
def state_with (seqs_queued : List Nat) (last_log_sent last_log : Nat) : LogClient :=
  { is_mon := false
    last_log_sent := last_log_sent
    last_log := last_log
    log_queue := seqs_queued.map entry_at
    log_facility := "daemon"
    log_level := "info"
    log_to_syslog := false }

/-- The queue invariant of a client whose `log()` calls all had monitor
delivery enabled: the queue holds consecutive seqs ending at `last_log`, and
its oldest seq is at least 1. -/
def QueueInv (s : LogClient) : Prop :=
  ConsecutiveEndingAt s.log_queue s.last_log ∧ s.log_queue.length ≤ s.last_log

/-- The outcomes of the drains of a run, in call order: `none` for `NULL`,
otherwise the seqs of the returned batch. -/
def Event.drained_seqs : Event → Option (Option (List Nat))
  | .drained .NULL => some none
  | .drained (.MLog entries) => some (some (seqs entries))
  | _ => none

/-- What the drains of a run returned, together with the final
`last_log_sent`; `none` when the run aborted. -/
def drains_of (r : Outcome (LogClient × List Event)) : Option (List (Option (List Nat)) × Nat) :=
  match r with
  | .ok (s, evs) => some (evs.filterMap Event.drained_seqs, s.last_log_sent)
  | .abort _ => none

/-- A configuration with monitor delivery off and local mirroring on. -/
def cfg_off : Config :=
  { clog_to_monitors := false
    clog_to_syslog := true
    clog_to_syslog_facility := "daemon"
    clog_to_syslog_level := "info"
    mon_client_max_log_entries_per_message := 3 }

/-- The event of a `log_op` call on `fresh_osd` that created the entry of the given seq. -/
def logged_at (seq : Nat) : Event :=
  .logged { entry := entry_at seq, mirrored := false, sent := none }

/-! ## The stream form of `do_log` -/

namespace LogClient

/-- `getline(ss, s)` on the unread characters of the stream: the line read
(the newline is consumed and not stored), the characters left unread, and
whether the read ran into the end of the stream (which sets `eofbit`). -/
def getline : List Char → List Char × List Char × Bool
  | [] => ([], [], true)
  | c :: rest =>
    if c = '\n' then ([], rest, false)
    else
      let r := getline rest
      (c :: r.1, r.2.1, r.2.2)

/-- The loop `while (!ss.eof()) { getline(ss, s); if (!s.empty()) do_log(prio, s); }`
of `do_log(clog_type, std::stringstream&)`, entered with `eofbit` clear.
`envs i` is what the `i`-th single-line call reads from the messenger and the
clock; `outs` collects what the single-line calls did.  The first argument
bounds the number of iterations; `none` means the bound was reached. -/
def do_log_loop (cfg : Config) (envs : Nat → Env) (prio : clog_type) :
    Nat → Nat → List Char → LogClient → List LogOut → Option (Outcome (LogClient × List LogOut))
  | 0, _, _, _, _ => none
  | fuel + 1, i, ss, s, outs =>
    let r := getline ss
    if r.1 ≠ [] then
      match do_log cfg (envs i) s prio (String.mk r.1) with
      | .abort f => some (.abort f)
      | .ok (s1, out) =>
        if r.2.2 then some (.ok (s1, outs ++ [out]))
        else do_log_loop cfg envs prio fuel (i + 1) r.2.1 s1 (outs ++ [out])
    else if r.2.2 then some (.ok (s, outs))
    else do_log_loop cfg envs prio fuel i r.2.1 s outs

/-- `LogClient::do_log(clog_type, std::stringstream&)` on a stream holding
`text`, nothing read yet.  Every iteration consumes a character or ends the
loop, so `text.length + 1` iterations are enough. -/
def do_log_stream (cfg : Config) (envs : Nat → Env) (s : LogClient) (prio : clog_type)
    (text : String) : Option (Outcome (LogClient × List LogOut)) :=
  do_log_loop cfg envs prio (text.length + 1) 0 text.data s []

/-- One single-line `do_log` call per given line, in order, the `i`-th call
reading `envs i`; stops at the first call that aborts. -/
def do_log_each (cfg : Config) (envs : Nat → Env) (prio : clog_type) :
    Nat → LogClient → List String → List LogOut → Outcome (LogClient × List LogOut)
  | _, s, [], outs => .ok (s, outs)
  | i, s, line :: lines, outs =>
    match do_log cfg (envs i) s prio line with
    | .abort f => .abort f
    | .ok (s1, out) => do_log_each cfg envs prio (i + 1) s1 lines (outs ++ [out])

end LogClient

/-- The non-empty newline-separated lines of a text, in order (the words of
the property on line splitting, independent of the loop of the source). -/
def nonempty_lines (text : String) : List String :=
  ((text.data.splitOn '\n').filter (fun l => decide (l ≠ []))).map String.mk

/-! ## The window invariant and acknowledgments inside the window -/

/-- The window invariant: the queue holds consecutive seqs ending at
`last_log`; `last_log_sent ≤ last_log`; if the queue is not empty its oldest
seq is at most `last_log_sent + 1`; if it is empty, `last_log_sent = last_log`. -/
def Window (s : LogClient) : Prop :=
  ConsecutiveEndingAt s.log_queue s.last_log ∧
  s.last_log_sent ≤ s.last_log ∧
  (∀ e ∈ s.log_queue.head?, e.seq ≤ s.last_log_sent + 1) ∧
  (s.log_queue = [] → s.last_log_sent = s.last_log)

instance (s : LogClient) : Decidable (Window s) := by
  unfold Window
  infer_instance

/-- The call, if it is an ack, is rejected or acknowledges nothing beyond
`last_log_sent` at the time of the call. -/
def Op.ack_in_window (s : LogClient) : Op → Bool
  | .ack cfg m => !(LogClient.handle_log_ack cfg s m).1 || decide (m.last ≤ s.last_log_sent)
  | _ => true

/-- Every ack of the run is rejected or acknowledges nothing beyond
`last_log_sent` at the time it is handled. -/
def acks_in_window (s : LogClient) : List Op → Bool
  | [] => true
  | op :: ops =>
    op.ack_in_window s &&
      match step s op with
      | .ok (s1, _) => acks_in_window s1 ops
      | .abort _ => true

/-- Each entry's seq is exactly one more than the seq of the entry before it. -/
def NoGaps (q : List LogEntry) : Prop :=
  List.Chain' (fun a b : LogEntry => b.seq = a.seq + 1) q

/-- The seqs are strictly increasing from head to tail. -/
def StrictlyIncreasing (q : List LogEntry) : Prop :=
  List.Pairwise (fun a b : Nat => a < b) (seqs q)

instance (q : List LogEntry) : Decidable (StrictlyIncreasing q) := by
  unfold StrictlyIncreasing
  infer_instance

/-- An environment of a monitor daemon. -/
def env_mon : Env := { myinst := 7, now := 100, myname_is_mon := true }

/-- A fresh self-addressed client (created with the monitor flag). -/
def fresh_mon : LogClient := LogClient.create (cfg_cap 3) true

/-- One `log()` call on a monitor, monitor delivery on, cap 3. -/
def log_mon : Op := .log (cfg_cap 3) env_mon .CLOG_INFO "event"

/-- `state_with` for a self-addressed client. -/
def mon_state_with (seqs_queued : List Nat) (last_log_sent last_log : Nat) : LogClient :=
  { state_with seqs_queued last_log_sent last_log with is_mon := true }

/-- The window invariant together with: the queue is no longer than
`last_log`, i.e. the oldest queued seq is at least 1 (seqs are assigned from
1), so that `last_log - queueLength` does not wrap around. -/
def Window1 (s : LogClient) : Prop :=
  Window s ∧ s.log_queue.length ≤ s.last_log

instance (s : LogClient) : Decidable (Window1 s) := by
  unfold Window1
  infer_instance

/-! ## Lemmas about the loops of the source -/

namespace LogClient

theorem scan_eq (ls : Nat) (q : List LogEntry) :
    scan ls q =
      if q.dropWhile (fun e => decide (e.seq < ls)) = [] then .abort .scan_reached_end
      else .ok (q.dropWhile (fun e => decide (e.seq < ls))) := by
  induction q with
  | nil => simp [scan]
  | cons e rest ih =>
    by_cases h : e.seq < ls
    · cases rest with
      | nil => simp [scan, h, List.dropWhile]
      | cons e2 rest2 =>
        rw [scan]
        simp only [h, if_true]
        rw [ih]
        simp [List.dropWhile, h]
    · cases rest with
      | nil => simp [scan, h, List.dropWhile]
      | cons e2 rest2 => simp [scan, h, List.dropWhile]

theorem copy_ok (n : Nat) (p o : List LogEntry) (ls : Nat) (h : n ≤ p.length) :
    copy n p o ls = .ok (o ++ p.take n, (((p.take n).getLast?).map (fun e => e.seq)).getD ls) := by
  induction n generalizing p o ls with
  | zero => simp [copy]
  | succ n ih =>
    cases p with
    | nil => simp at h
    | cons e rest =>
      simp only [List.length_cons, Nat.add_le_add_iff_right] at h
      rw [copy, ih rest (o ++ [e]) e.seq h]
      cases n with
      | zero => simp
      | succ k =>
        cases rest with
        | nil => simp at h
        | cons e2 rest2 =>
          simp only [List.take_succ_cons, List.getLast?_cons_cons, List.append_assoc,
            List.singleton_append]
          cases hl : (e2 :: List.take k rest2).getLast? with
          | none => simp at hl
          | some x => simp

theorem erase_acked_idem (last : Nat) (q : List LogEntry) :
    erase_acked last (erase_acked last q) = erase_acked last q := by
  induction q with
  | nil => rfl
  | cons e rest ih =>
    by_cases h : e.seq > last
    · simp [erase_acked, h]
    · simp [erase_acked, h, ih]

theorem scan_consecutive (ls : Nat) (q : List LogEntry) (a : Nat)
    (hq : seqs q = List.range' a q.length) (hlt : ls - a < q.length) :
    scan ls q = .ok (q.drop (ls - a)) := by
  induction q generalizing a with
  | nil => simp at hlt
  | cons e rest ih =>
    simp only [seqs, List.map_cons, List.length_cons, List.range'_succ, List.cons.injEq] at hq
    obtain ⟨he, hrest⟩ := hq
    by_cases h : e.seq < ls
    · cases rest with
      | nil => simp only [List.length_cons, List.length_nil] at hlt; omega
      | cons e2 rest2 =>
        have hstep : scan ls (e :: e2 :: rest2) = scan ls (e2 :: rest2) := by
          simp [scan, h]
        rw [hstep, ih (a + 1) hrest (by simp only [List.length_cons] at hlt ⊢; omega)]
        have : ls - a = (ls - (a + 1)) + 1 := by omega
        rw [this, List.drop_succ_cons]
    · have h0 : ls - a = 0 := by omega
      rw [h0]
      cases rest with
      | nil => simp [scan, h]
      | cons e2 rest2 => simp [scan, h]

theorem num_unsent_le (s : LogClient) (h : s.last_log_sent ≤ s.last_log) :
    num_unsent s ≤ s.last_log - s.last_log_sent := by
  simp only [num_unsent, U64, U32]
  omega

theorem num_unsent_eq (s : LogClient) (h : s.last_log_sent ≤ s.last_log)
    (hfit : s.last_log - s.last_log_sent < 2 ^ 32) :
    num_unsent s = s.last_log - s.last_log_sent := by
  simp only [num_unsent, U64, U32]
  omega

theorem num_send_le (cfg : Config) (s : LogClient) : num_send cfg s ≤ num_unsent s := by
  unfold num_send
  split
  · exact Nat.min_le_left _ _
  · exact Nat.le_refl _

theorem drain_eq (cfg : Config) (s : LogClient) (p : List LogEntry)
    (hq : s.log_queue ≠ []) (hne : s.last_log_sent ≠ s.last_log)
    (hle : num_unsent s ≤ s.log_queue.length)
    (hp : scan s.last_log_sent s.log_queue = .ok p) (hn : num_send cfg s ≤ p.length) :
    _get_mon_log_message cfg s =
      .ok (.MLog (p.take (num_send cfg s)),
        { s with last_log_sent :=
            (((p.take (num_send cfg s)).getLast?).map LogEntry.seq).getD s.last_log_sent }) := by
  unfold _get_mon_log_message
  rw [if_neg hq, if_neg hne, if_neg (not_not.mpr hle), hp]
  simp only
  rw [copy_ok _ _ _ _ hn]
  simp

theorem head_seq_of_consecutive (e : LogEntry) (rest : List LogEntry) (a : Nat)
    (hq : seqs (e :: rest) = List.range' a (e :: rest).length) : e.seq = a := by
  simp only [seqs, List.map_cons, List.length_cons, List.range'_succ, List.cons.injEq] at hq
  exact hq.1

/-- In a well-formed state with something unsent, the drain returns the
`num_send` entries that follow the scan position, and only moves `last_log_sent`. -/
theorem drain_wellformed (cfg : Config) (s : LogClient) (hwf : WellFormed s)
    (hq : s.log_queue ≠ []) (hne : s.last_log_sent ≠ s.last_log) :
    ∃ batch : List LogEntry,
      batch = (s.log_queue.drop (s.last_log_sent - (s.last_log + 1 - s.log_queue.length))).take
        (num_send cfg s) ∧
      batch.length = num_send cfg s ∧
      _get_mon_log_message cfg s =
        .ok (.MLog batch,
          { s with last_log_sent := ((batch.getLast?).map LogEntry.seq).getD s.last_log_sent }) := by
  obtain ⟨⟨hlen, hseqs⟩, hsent, hhead⟩ := hwf
  have hlt : s.last_log_sent < s.last_log := lt_of_le_of_ne hsent hne
  have hpos : 0 < s.log_queue.length := List.length_pos.mpr hq
  have ha : s.last_log + 1 - s.log_queue.length ≤ s.last_log_sent + 1 := by
    obtain ⟨e, rest, hqq⟩ := List.exists_cons_of_ne_nil hq
    have h1 := hhead e (by simp [hqq])
    have h2 := head_seq_of_consecutive e rest _ (hqq ▸ hseqs)
    have hl : (e :: rest).length = s.log_queue.length := by rw [hqq]
    rw [hl] at h2
    omega
  have hun := num_unsent_le s hsent
  have hns := num_send_le cfg s
  have hscan := scan_consecutive s.last_log_sent s.log_queue _ hseqs (by omega)
  have hn : num_send cfg s ≤
      (s.log_queue.drop (s.last_log_sent - (s.last_log + 1 - s.log_queue.length))).length := by
    rw [List.length_drop]; omega
  refine ⟨_, rfl, ?_, drain_eq cfg s _ hq hne (by omega) hscan hn⟩
  rw [List.length_take]; omega


theorem drain_frame (cfg : Config) (s s1 : LogClient) (m : Message)
    (h : _get_mon_log_message cfg s = .ok (m, s1)) :
    s1 = { s with last_log_sent := s1.last_log_sent } := by
  unfold _get_mon_log_message at h
  split at h
  · cases h; rfl
  split at h
  · cases h; rfl
  split at h
  · cases h
  split at h
  · cases h
  split at h
  · cases h
  · cases h; rfl

theorem do_log_spec (cfg : Config) (env : Env) (s s1 : LogClient) (prio : clog_type)
    (msg : String) (out : LogOut) (h : do_log cfg env s prio msg = .ok (s1, out)) :
    out.entry.seq = (s.last_log + 1) % U64 ∧
    s1.last_log = (s.last_log + 1) % U64 ∧
    s1.log_queue = (if cfg.clog_to_monitors then s.log_queue ++ [out.entry] else s.log_queue) := by
  unfold do_log at h
  simp only at h
  split at h
  · rename_i hmon
    split at h
    · split at h
      · cases h
      · split at h
        · cases h
        · rename_i log s3 hd
          cases h
          have hf := drain_frame _ _ _ _ hd
          rw [hf]
          simp [hmon]
    · cases h
      simp [hmon]
  · rename_i hmon
    cases h
    simp [hmon]

theorem erase_acked_is_drop (last : Nat) (q : List LogEntry) :
    ∃ k, k ≤ q.length ∧ erase_acked last q = q.drop k := by
  induction q with
  | nil => exact ⟨0, by simp, rfl⟩
  | cons e rest ih =>
    by_cases h : e.seq > last
    · exact ⟨0, by simp, by simp [erase_acked, h]⟩
    · obtain ⟨k, hk, hd⟩ := ih
      exact ⟨k + 1, by simp [hk], by simp [erase_acked, h, hd]⟩

theorem handle_log_ack_frame (cfg : Config) (s : LogClient) (m : MLogAck) :
    ∃ k, k ≤ s.log_queue.length ∧
      (handle_log_ack cfg s m).2 = { s with log_queue := s.log_queue.drop k } := by
  unfold handle_log_ack
  simp only
  by_cases hf : (if m.facility = "" then cfg.clog_to_syslog_facility else m.facility) =
      get_log_facility s
  · rw [if_pos hf]
    exact ⟨0, by simp, by simp⟩
  · rw [if_neg hf]
    obtain ⟨k, hk, hd⟩ := erase_acked_is_drop m.last s.log_queue
    exact ⟨k, hk, by simp [hd]⟩

end LogClient

theorem step_last_log (s s1 : LogClient) (op : Op) (ev : Event)
    (h : step s op = .ok (s1, ev)) :
    s1.last_log = (if op.is_log then (s.last_log + 1) % U64 else s.last_log) ∧
    ev.logged_seq = (if op.is_log then some ((s.last_log + 1) % U64) else none) := by
  cases op with
  | log cfg env prio msg =>
    simp only [step] at h
    split at h
    · cases h
    · rename_i s2 out hd
      cases h
      have := LogClient.do_log_spec _ _ _ _ _ _ _ hd
      simp [Op.is_log, Event.logged_seq, this.1, this.2.1]
  | drain cfg =>
    simp only [step, LogClient.get_mon_log_message] at h
    split at h
    · cases h
    · rename_i m s2 hd
      cases h
      have := LogClient.drain_frame _ _ _ _ hd
      rw [this]
      simp [Op.is_log, Event.logged_seq]
  | ack cfg m =>
    simp only [step] at h
    cases h
    obtain ⟨k, -, hk⟩ := LogClient.handle_log_ack_frame cfg s m
    rw [hk]
    simp [Op.is_log, Event.logged_seq]
  | reset =>
    simp only [step] at h
    cases h
    simp [Op.is_log, Event.logged_seq, LogClient.reset_session]

theorem run_cons (s : LogClient) (op : Op) (ops : List Op) (s2 : LogClient) (evs : List Event)
    (h : run s (op :: ops) = .ok (s2, evs)) :
    ∃ s1 ev evs1, step s op = .ok (s1, ev) ∧ run s1 ops = .ok (s2, evs1) ∧ evs = ev :: evs1 := by
  simp only [run] at h
  split at h
  · cases h
  · rename_i s1 ev hs
    split at h
    · cases h
    · rename_i s3 evs1 hr
      cases h
      exact ⟨s1, ev, evs1, hs, hr, rfl⟩

theorem run_last_log (ops : List Op) (s s2 : LogClient) (evs : List Event)
    (h : run s ops = .ok (s2, evs)) (hb : s.last_log + num_logs ops < U64) :
    s2.last_log = s.last_log + num_logs ops ∧
    logged_seqs evs = List.range' (s.last_log + 1) (num_logs ops) := by
  induction ops generalizing s evs with
  | nil =>
    simp only [run] at h
    cases h
    simp [num_logs, logged_seqs]
  | cons op ops ih =>
    obtain ⟨s1, ev, evs1, hs, hr, rfl⟩ := run_cons s op ops s2 evs h
    obtain ⟨h1, h2⟩ := step_last_log s s1 op ev hs
    cases hop : op.is_log
    · have hn : num_logs (op :: ops) = num_logs ops := by simp [num_logs, List.filter, hop]
      rw [hop] at h1 h2
      simp only [Bool.false_eq_true, if_false] at h1 h2
      rw [hn] at hb ⊢
      obtain ⟨i1, i2⟩ := ih s1 evs1 hr (by rw [h1]; exact hb)
      rw [h1] at i1 i2
      exact ⟨i1, by simp [logged_seqs, List.filterMap_cons, h2]; exact i2⟩
    · have hn : num_logs (op :: ops) = num_logs ops + 1 := by simp [num_logs, List.filter, hop]
      rw [hop] at h1 h2
      simp only [if_true] at h1 h2
      rw [hn] at hb ⊢
      have hmod : (s.last_log + 1) % U64 = s.last_log + 1 := Nat.mod_eq_of_lt (by omega)
      rw [hmod] at h1 h2
      obtain ⟨i1, i2⟩ := ih s1 evs1 hr (by rw [h1]; omega)
      rw [h1] at i1 i2
      refine ⟨by omega, ?_⟩
      simp only [logged_seqs, List.filterMap_cons, h2, List.range'_succ]
      exact congrArg _ i2

theorem drop_range_consecutive (a n k : Nat) :
    (List.range' a n).drop k = List.range' (a + k) (n - k) := by
  induction k generalizing a n with
  | zero => simp
  | succ k ih =>
    cases n with
    | zero => simp
    | succ n =>
      rw [List.range'_succ, List.drop_succ_cons, ih]
      have h1 : a + 1 + k = a + (k + 1) := by omega
      have h2 : n + 1 - (k + 1) = n - k := by omega
      rw [h1, h2]

theorem consecutive_drop (q : List LogEntry) (last k : Nat)
    (h : ConsecutiveEndingAt q last) : ConsecutiveEndingAt (q.drop k) last := by
  obtain ⟨hlen, hseqs⟩ := h
  refine ⟨by rw [List.length_drop]; omega, ?_⟩
  unfold seqs at hseqs ⊢
  rw [List.map_drop, hseqs, drop_range_consecutive, List.length_drop]
  by_cases hk : k ≤ q.length
  · have : last + 1 - q.length + k = last + 1 - (q.length - k) := by omega
    rw [this]
  · have : q.length - k = 0 := by omega
    rw [this]; simp

theorem consecutive_push (q : List LogEntry) (last : Nat) (e : LogEntry)
    (h : ConsecutiveEndingAt q last) (hlen : q.length ≤ last) (he : e.seq = last + 1) :
    ConsecutiveEndingAt (q ++ [e]) (last + 1) := by
  obtain ⟨-, hseqs⟩ := h
  refine ⟨by simp; omega, ?_⟩
  unfold seqs at hseqs ⊢
  rw [List.map_append, hseqs, List.length_append, List.length_singleton, List.range'_1_concat]
  have h1 : last + 1 + 1 - (q.length + 1) = last + 1 - q.length := by omega
  have h2 : last + 1 - q.length + q.length = last + 1 := by omega
  rw [h1, h2]
  simp [he]

theorem step_queue_inv (s s1 : LogClient) (op : Op) (ev : Event)
    (h : step s op = .ok (s1, ev)) (hmon : op.monitors_on = true)
    (hb : op.is_log = true → s.last_log + 1 < U64) (hinv : QueueInv s) : QueueInv s1 := by
  obtain ⟨hc, hl⟩ := hinv
  cases op with
  | log cfg env prio msg =>
    simp only [step] at h
    split at h
    · cases h
    · rename_i s2 out hd
      cases h
      obtain ⟨h1, h2, h3⟩ := LogClient.do_log_spec _ _ _ _ _ _ _ hd
      simp only [Op.monitors_on] at hmon
      have hmod : (s.last_log + 1) % U64 = s.last_log + 1 := Nat.mod_eq_of_lt (hb rfl)
      rw [hmod] at h1 h2
      rw [hmon] at h3
      simp only [if_true] at h3
      unfold QueueInv
      rw [h2, h3]
      exact ⟨consecutive_push _ _ _ hc hl h1, by simp; omega⟩
  | drain cfg =>
    simp only [step, LogClient.get_mon_log_message] at h
    split at h
    · cases h
    · rename_i m s2 hd
      cases h
      have := LogClient.drain_frame _ _ _ _ hd
      rw [this]
      exact ⟨hc, hl⟩
  | ack cfg m =>
    simp only [step] at h
    cases h
    obtain ⟨k, -, hk⟩ := LogClient.handle_log_ack_frame cfg s m
    rw [hk]
    exact ⟨consecutive_drop _ _ k hc, by simp only [List.length_drop]; omega⟩
  | reset =>
    simp only [step] at h
    cases h
    exact ⟨hc, hl⟩

theorem run_queue_inv (ops : List Op) (s s2 : LogClient) (evs : List Event)
    (h : run s ops = .ok (s2, evs)) (hmon : ∀ op ∈ ops, op.monitors_on = true)
    (hb : s.last_log + num_logs ops < U64) (hinv : QueueInv s) : QueueInv s2 := by
  induction ops generalizing s evs with
  | nil =>
    simp only [run] at h
    cases h
    exact hinv
  | cons op ops ih =>
    obtain ⟨s1, ev, evs1, hs, hr, rfl⟩ := run_cons s op ops s2 evs h
    obtain ⟨h1, -⟩ := step_last_log s s1 op ev hs
    have hmon1 := hmon op (List.mem_cons_self _ _)
    have hmon2 : ∀ o ∈ ops, o.monitors_on = true := fun o ho => hmon o (List.mem_cons_of_mem _ ho)
    cases hop : op.is_log
    · have hn : num_logs (op :: ops) = num_logs ops := by simp [num_logs, List.filter, hop]
      rw [hop] at h1
      simp only [Bool.false_eq_true, if_false] at h1
      rw [hn] at hb
      exact ih s1 evs1 hr hmon2 (by rw [h1]; exact hb)
        (step_queue_inv s s1 op ev hs hmon1 (by simp [hop]) hinv)
    · have hn : num_logs (op :: ops) = num_logs ops + 1 := by simp [num_logs, List.filter, hop]
      rw [hop] at h1
      simp only [if_true] at h1
      rw [hn] at hb
      have hmod : (s.last_log + 1) % U64 = s.last_log + 1 := Nat.mod_eq_of_lt (by omega)
      rw [hmod] at h1
      exact ih s1 evs1 hr hmon2 (by rw [h1]; omega)
        (step_queue_inv s s1 op ev hs hmon1 (fun _ => by omega) hinv)

theorem queue_inv_create_with (flag_mon b : Bool) (fac lvl : String) :
    QueueInv (LogClient.create_with flag_mon b fac lvl) := by
  simp [QueueInv, ConsecutiveEndingAt, LogClient.create_with, seqs]

theorem run_cons_ok {s s1 s2 : LogClient} {op : Op} {ops : List Op} {ev : Event}
    {evs : List Event} (h1 : step s op = .ok (s1, ev)) (h2 : run s1 ops = .ok (s2, evs)) :
    run s (op :: ops) = .ok (s2, ev :: evs) := by
  simp only [run, h1, h2]

theorem run_nil (s : LogClient) : run s [] = .ok (s, []) := rfl

theorem run_append_ok {s s1 s2 : LogClient} {ops1 ops2 : List Op} {evs1 evs2 : List Event}
    (h1 : run s ops1 = .ok (s1, evs1)) (h2 : run s1 ops2 = .ok (s2, evs2)) :
    run s (ops1 ++ ops2) = .ok (s2, evs1 ++ evs2) := by
  induction ops1 generalizing s evs1 with
  | nil =>
    simp only [run] at h1
    cases h1
    simpa using h2
  | cons op ops ih =>
    obtain ⟨sa, ev, evsa, hs, hr, rfl⟩ := run_cons s op ops s1 evs1 h1
    exact run_cons_ok hs (ih hr)

theorem reset_session_of_inv (s : LogClient) (hinv : QueueInv s) (hL : s.last_log < 2 ^ 64) :
    LogClient.reset_session s =
      { s with last_log_sent := s.last_log - s.log_queue.length } := by
  obtain ⟨-, hl⟩ := hinv
  have : (s.last_log + U64 - s.log_queue.length % U64) % U64 =
      s.last_log - s.log_queue.length := by
    simp only [U64]
    omega
  simp only [LogClient.reset_session, this]

theorem head_seq_of_inv (s : LogClient) (hinv : QueueInv s) (e : LogEntry)
    (he : e ∈ s.log_queue.head?) : e.seq = s.last_log + 1 - s.log_queue.length := by
  obtain ⟨⟨-, hseqs⟩, -⟩ := hinv
  cases hq : s.log_queue with
  | nil => simp [hq] at he
  | cons e1 rest =>
    simp only [hq, List.head?_cons, Option.mem_def, Option.some.injEq] at he
    subst he
    have h2 := LogClient.head_seq_of_consecutive e1 rest _ (hq ▸ hseqs)
    rw [h2]

theorem wellformed_reset (s : LogClient) (hinv : QueueInv s) (hL : s.last_log < 2 ^ 64) :
    WellFormed (LogClient.reset_session s) := by
  rw [reset_session_of_inv s hinv hL]
  refine ⟨hinv.1, Nat.sub_le _ _, ?_⟩
  intro e he
  have h := head_seq_of_inv s hinv e he
  have hl := hinv.2
  simp only at h ⊢
  omega

/-! ## Lemmas for acknowledgments, gaps and the window invariant -/

theorem erase_acked_eq_dropWhile (last : Nat) (q : List LogEntry) :
    LogClient.erase_acked last q = q.dropWhile (fun e => decide (e.seq ≤ last)) := by
  induction q with
  | nil => rfl
  | cons e rest ih =>
    by_cases h : e.seq > last
    · have h2 : ¬ e.seq ≤ last := by omega
      simp [LogClient.erase_acked, h, List.dropWhile, h2]
    · have h2 : e.seq ≤ last := by omega
      simp [LogClient.erase_acked, h, List.dropWhile, h2, ih]

theorem no_gaps_of_range (q : List LogEntry) (a : Nat)
    (hq : seqs q = List.range' a q.length) : NoGaps q := by
  unfold NoGaps
  induction q generalizing a with
  | nil => exact List.chain'_nil
  | cons e rest ih =>
    simp only [seqs, List.map_cons, List.length_cons, List.range'_succ, List.cons.injEq] at hq
    obtain ⟨he, hrest⟩ := hq
    cases rest with
    | nil => exact List.chain'_singleton _
    | cons e2 rest2 =>
      have h2 := LogClient.head_seq_of_consecutive e2 rest2 (a + 1) hrest
      exact List.Chain'.cons (by omega) (ih (a + 1) hrest)

theorem take_range_consecutive (a n k : Nat) :
    (List.range' a n).take k = List.range' a (min k n) := by
  induction k generalizing a n with
  | zero => simp
  | succ k ih =>
    cases n with
    | zero => simp
    | succ n =>
      rw [List.range'_succ, List.take_succ_cons, ih]
      have : min (k + 1) (n + 1) = min k n + 1 := by omega
      rw [this, List.range'_succ]

/-- In a well-formed state with something unsent the batch has the seqs
`start, start + 1, ...`, where `start` is `last_log_sent` if that entry is
still queued and `last_log_sent + 1` otherwise. -/
theorem drain_wellformed_seqs (cfg : Config) (s : LogClient) (hwf : WellFormed s)
    (hq : s.log_queue ≠ []) (hne : s.last_log_sent ≠ s.last_log) :
    ∃ batch : List LogEntry,
      batch = (s.log_queue.drop (s.last_log_sent - (s.last_log + 1 - s.log_queue.length))).take
        (LogClient.num_send cfg s) ∧
      seqs batch = List.range'
        (s.last_log + 1 - s.log_queue.length +
          (s.last_log_sent - (s.last_log + 1 - s.log_queue.length)))
        (LogClient.num_send cfg s) ∧
      s.last_log + 1 - s.log_queue.length +
          (s.last_log_sent - (s.last_log + 1 - s.log_queue.length)) +
          LogClient.num_send cfg s ≤ s.last_log + 1 ∧
      s.last_log + 1 - s.log_queue.length ≤ s.last_log_sent + 1 ∧
      LogClient._get_mon_log_message cfg s =
        .ok (.MLog batch,
          { s with last_log_sent := ((batch.getLast?).map LogEntry.seq).getD s.last_log_sent }) := by
  obtain ⟨batch, hbatch, hlen, hrun⟩ := LogClient.drain_wellformed cfg s hwf hq hne
  obtain ⟨⟨hl, hseqs⟩, hsent, hhead⟩ := hwf
  have hpos : 0 < s.log_queue.length := List.length_pos.mpr hq
  have ha : s.last_log + 1 - s.log_queue.length ≤ s.last_log_sent + 1 := by
    obtain ⟨e, rest, hqq⟩ := List.exists_cons_of_ne_nil hq
    have h1 := hhead e (by simp [hqq])
    have h2 := LogClient.head_seq_of_consecutive e rest _ (hqq ▸ hseqs)
    have hl2 : (e :: rest).length = s.log_queue.length := by rw [hqq]
    rw [hl2] at h2
    omega
  have hun := LogClient.num_unsent_le s hsent
  have hns := LogClient.num_send_le cfg s
  have hbound : s.last_log + 1 - s.log_queue.length +
      (s.last_log_sent - (s.last_log + 1 - s.log_queue.length)) +
      LogClient.num_send cfg s ≤ s.last_log + 1 := by omega
  refine ⟨batch, hbatch, ?_, hbound, ha, hrun⟩
  rw [hbatch]
  unfold seqs at hseqs ⊢
  rw [List.map_take, List.map_drop, hseqs, drop_range_consecutive, take_range_consecutive]
  congr 1
  omega

theorem window_wellformed (s : LogClient) (h : Window s) : WellFormed s :=
  ⟨h.1, h.2.1, h.2.2.1⟩

theorem window_create_with (flag_mon b : Bool) (fac lvl : String) :
    Window (LogClient.create_with flag_mon b fac lvl) := by
  simp [Window, ConsecutiveEndingAt, LogClient.create_with, seqs]

theorem last_seq_of_range (batch : List LogEntry) (a n : Nat) (ls : Nat)
    (h : seqs batch = List.range' a n) :
    ((batch.getLast?).map LogEntry.seq).getD ls = if n = 0 then ls else a + n - 1 := by
  have : (batch.getLast?).map LogEntry.seq = (seqs batch).getLast? := by
    simp [seqs, List.getLast?_map]
  rw [this, h, List.getLast?_range']
  split <;> simp

/-- The drain never trips an assertion in a window state, and keeps the window. -/
theorem window_drain (cfg : Config) (s : LogClient) (hW : Window s) :
    ∃ (m : Message) (s1 : LogClient),
      LogClient._get_mon_log_message cfg s = .ok (m, s1) ∧ Window s1 ∧
      s1.log_queue = s.log_queue ∧ s1.last_log = s.last_log ∧
      s.last_log_sent ≤ s1.last_log_sent := by
  by_cases hq : s.log_queue = []
  · exact ⟨.NULL, s, by simp [LogClient._get_mon_log_message, hq], hW, rfl, rfl, le_refl _⟩
  by_cases hne : s.last_log_sent = s.last_log
  · exact ⟨.NULL, s, by simp [LogClient._get_mon_log_message, hq, hne], hW, rfl, rfl, le_refl _⟩
  obtain ⟨batch, -, hseqs, hbound, ha, hrun⟩ :=
    drain_wellformed_seqs cfg s (window_wellformed s hW) hq hne
  have hlast := last_seq_of_range batch _ _ s.last_log_sent hseqs
  obtain ⟨hc, hsent, hhead, -⟩ := hW
  have hnew : s.last_log_sent ≤
        ((batch.getLast?).map LogEntry.seq).getD s.last_log_sent ∧
      ((batch.getLast?).map LogEntry.seq).getD s.last_log_sent ≤ s.last_log := by
    rw [hlast]
    split <;> omega
  refine ⟨_, _, hrun, ⟨hc, hnew.2, ?_, fun h => absurd h hq⟩, rfl, rfl, hnew.1⟩
  intro e he
  have := hhead e he
  simp only
  omega
theorem window_push (s : LogClient) (e : LogEntry) (hW : Window s)
    (hlen : s.log_queue.length ≤ s.last_log) (he : e.seq = s.last_log + 1) :
    Window { s with last_log := s.last_log + 1, log_queue := s.log_queue ++ [e] } := by
  obtain ⟨hc, hsent, hhead, hempty⟩ := hW
  refine ⟨consecutive_push _ _ _ hc hlen he, by simp only; omega, ?_, by simp⟩
  intro x hx
  simp only at hx ⊢
  cases hq : s.log_queue with
  | nil =>
    have hls := hempty hq
    rw [hq] at hx
    simp only [List.nil_append, List.head?_cons, Option.mem_def, Option.some.injEq] at hx
    subst hx
    omega
  | cons e1 rest =>
    rw [hq] at hx
    simp only [List.cons_append, List.head?_cons, Option.mem_def, Option.some.injEq] at hx
    subst hx
    exact hhead e1 (by simp [hq])

theorem window_reset (s : LogClient) (hW : Window s)
    (hlen : s.log_queue.length ≤ s.last_log) (hL : s.last_log < 2 ^ 64) :
    Window (LogClient.reset_session s) := by
  have hwf := wellformed_reset s ⟨hW.1, hlen⟩ hL
  refine ⟨hwf.1, hwf.2.1, hwf.2.2, ?_⟩
  intro hq
  have hq2 : s.log_queue = [] := hq
  rw [reset_session_of_inv s ⟨hW.1, hlen⟩ hL]
  simp [hq2]

theorem erase_acked_head (last ls : Nat) (q : List LogEntry) (a : Nat)
    (hq : seqs q = List.range' a q.length)
    (hhead : ∀ e ∈ q.head?, e.seq ≤ ls + 1) (hS : last ≤ ls) :
    ∀ e ∈ (LogClient.erase_acked last q).head?, e.seq ≤ ls + 1 := by
  induction q generalizing a with
  | nil => simp [LogClient.erase_acked]
  | cons e rest ih =>
    have hq0 := hq
    simp only [seqs, List.map_cons, List.length_cons, List.range'_succ, List.cons.injEq] at hq
    obtain ⟨he, hrest⟩ := hq
    by_cases h : e.seq > last
    · simpa [LogClient.erase_acked, h] using hhead
    · have hstep : LogClient.erase_acked last (e :: rest) = LogClient.erase_acked last rest := by
        simp [LogClient.erase_acked, h]
      rw [hstep]
      apply ih (a + 1) hrest
      intro x hx
      cases rest with
      | nil => simp at hx
      | cons e2 rest2 =>
        simp only [List.head?_cons, Option.mem_def, Option.some.injEq] at hx
        subst hx
        have := LogClient.head_seq_of_consecutive e2 rest2 (a + 1) hrest
        omega

theorem erase_acked_eq_nil (last : Nat) (q : List LogEntry)
    (h : LogClient.erase_acked last q = []) : ∀ e ∈ q, e.seq ≤ last := by
  induction q with
  | nil => simp
  | cons e rest ih =>
    by_cases hgt : e.seq > last
    · simp [LogClient.erase_acked, hgt] at h
    · have hstep : LogClient.erase_acked last (e :: rest) = LogClient.erase_acked last rest := by
        simp [LogClient.erase_acked, hgt]
      rw [hstep] at h
      intro x hx
      rcases List.mem_cons.mp hx with rfl | hx
      · omega
      · exact ih h x hx

theorem handle_log_ack_cases (cfg : Config) (s : LogClient) (m : MLogAck) :
    LogClient.handle_log_ack cfg s m = (false, s) ∨
    LogClient.handle_log_ack cfg s m =
      (true, { s with log_queue := LogClient.erase_acked m.last s.log_queue }) := by
  unfold LogClient.handle_log_ack
  simp only
  by_cases hf : (if m.facility = "" then cfg.clog_to_syslog_facility else m.facility) =
      LogClient.get_log_facility s
  · left; rw [if_pos hf]
  · right; rw [if_neg hf]

theorem window_ack (cfg : Config) (s : LogClient) (m : MLogAck) (hW : Window s)
    (hin : (LogClient.handle_log_ack cfg s m).1 = false ∨ m.last ≤ s.last_log_sent) :
    Window (LogClient.handle_log_ack cfg s m).2 := by
  rcases handle_log_ack_cases cfg s m with h | h
  · rw [h]; exact hW
  · rw [h] at hin ⊢
    have hS : m.last ≤ s.last_log_sent := by
      rcases hin with hf | hS
      · simp at hf
      · exact hS
    obtain ⟨hc, hsent, hhead, hempty⟩ := hW
    obtain ⟨k, -, hk⟩ := LogClient.erase_acked_is_drop m.last s.log_queue
    refine ⟨?_, hsent, erase_acked_head m.last s.last_log_sent s.log_queue _ hc.2 hhead hS, ?_⟩
    · show ConsecutiveEndingAt (LogClient.erase_acked m.last s.log_queue) s.last_log
      rw [hk]; exact consecutive_drop _ _ k hc
    · intro hnil
      have hnil2 : LogClient.erase_acked m.last s.log_queue = [] := hnil
      show s.last_log_sent = s.last_log
      by_cases hq : s.log_queue = []
      · exact hempty hq
      · have hall := erase_acked_eq_nil m.last s.log_queue hnil2
        have hpos : 0 < s.log_queue.length := List.length_pos.mpr hq
        have hmem : s.last_log ∈ seqs s.log_queue := by
          rw [hc.2, List.mem_range'_1]
          have := hc.1
          omega
        obtain ⟨e, he, hes⟩ := List.mem_map.mp hmem
        have := hall e he
        omega

theorem ack_length_le (cfg : Config) (s : LogClient) (m : MLogAck) :
    (LogClient.handle_log_ack cfg s m).2.log_queue.length ≤ s.log_queue.length ∧
    (LogClient.handle_log_ack cfg s m).2.last_log = s.last_log ∧
    (LogClient.handle_log_ack cfg s m).2.last_log_sent = s.last_log_sent := by
  obtain ⟨k, -, hk⟩ := LogClient.handle_log_ack_frame cfg s m
  rw [hk]
  simp

/-- A `log()` call with monitor delivery on keeps the window, also in
self-addressed mode where it drains right away. -/
theorem window_do_log (cfg : Config) (env : Env) (s s1 : LogClient) (prio : clog_type)
    (msg : String) (out : LogClient.LogOut)
    (h : LogClient.do_log cfg env s prio msg = .ok (s1, out))
    (hmon : cfg.clog_to_monitors = true) (hW : Window s)
    (hlen : s.log_queue.length ≤ s.last_log) (hL : s.last_log + 1 < 2 ^ 64) :
    Window s1 ∧ s1.log_queue.length ≤ s1.last_log := by
  have hmod : (s.last_log + 1) % U64 = s.last_log + 1 := Nat.mod_eq_of_lt (by simpa [U64] using hL)
  unfold LogClient.do_log at h
  simp only [hmon, if_true, hmod] at h
  have hpush := window_push s
    { who := env.myinst, stamp := env.now, seq := s.last_log + 1, prio := prio, msg := msg,
      facility := LogClient.get_log_facility s } hW hlen rfl
  split at h
  · split at h
    · cases h
    · split at h
      · cases h
      · rename_i log s3 hd
        cases h
        obtain ⟨m2, s4, hd2, hW4, hq4, hL4, -⟩ := window_drain cfg _ hpush
        rw [hd] at hd2
        cases hd2
        refine ⟨hW4, ?_⟩
        rw [hq4, hL4]
        simp; omega
  · cases h
    exact ⟨hpush, by simp; omega⟩
theorem step_window1 (s s1 : LogClient) (op : Op) (ev : Event)
    (h : step s op = .ok (s1, ev)) (hmon : op.monitors_on = true)
    (hack : op.ack_in_window s = true) (hL : s.last_log < 2 ^ 64)
    (hlog : op.is_log = true → s.last_log + 1 < 2 ^ 64) (hinv : Window1 s) : Window1 s1 := by
  obtain ⟨hW, hlen⟩ := hinv
  cases op with
  | log cfg env prio msg =>
    simp only [step] at h
    split at h
    · cases h
    · rename_i s2 out hd
      cases h
      exact window_do_log cfg env s _ prio msg out hd hmon hW hlen (hlog rfl)
  | drain cfg =>
    simp only [step, LogClient.get_mon_log_message] at h
    split at h
    · cases h
    · rename_i m s2 hd
      cases h
      obtain ⟨m2, s3, hd2, hW3, hq3, hL3, -⟩ := window_drain cfg s hW
      rw [hd] at hd2
      cases hd2
      exact ⟨hW3, by rw [hq3, hL3]; exact hlen⟩
  | ack cfg m =>
    simp only [step] at h
    cases h
    simp only [Op.ack_in_window, Bool.or_eq_true, Bool.not_eq_true', decide_eq_true_eq] at hack
    obtain ⟨h1, h2, -⟩ := ack_length_le cfg s m
    exact ⟨window_ack cfg s m hW hack, by rw [h2]; omega⟩
  | reset =>
    simp only [step] at h
    cases h
    exact ⟨window_reset s hW hlen hL, hlen⟩

theorem run_window1 (ops : List Op) (s s2 : LogClient) (evs : List Event)
    (h : run s ops = .ok (s2, evs)) (hmon : ∀ op ∈ ops, op.monitors_on = true)
    (hacks : acks_in_window s ops = true)
    (hb : s.last_log + num_logs ops < U64) (hinv : Window1 s) : Window1 s2 := by
  induction ops generalizing s evs with
  | nil =>
    simp only [run] at h
    cases h
    exact hinv
  | cons op ops ih =>
    obtain ⟨s1, ev, evs1, hs, hr, rfl⟩ := run_cons s op ops s2 evs h
    obtain ⟨h1, -⟩ := step_last_log s s1 op ev hs
    have hmon1 := hmon op (List.mem_cons_self _ _)
    have hmon2 : ∀ o ∈ ops, o.monitors_on = true := fun o ho => hmon o (List.mem_cons_of_mem _ ho)
    simp only [acks_in_window, hs, Bool.and_eq_true] at hacks
    obtain ⟨hack1, hack2⟩ := hacks
    have hL : s.last_log < 2 ^ 64 := by simp only [U64] at hb; omega
    cases hop : op.is_log
    · have hn : num_logs (op :: ops) = num_logs ops := by simp [num_logs, List.filter, hop]
      rw [hop] at h1
      simp only [Bool.false_eq_true, if_false] at h1
      rw [hn] at hb
      exact ih s1 evs1 hr hmon2 hack2 (by rw [h1]; exact hb)
        (step_window1 s s1 op ev hs hmon1 hack1 hL (by simp [hop]) hinv)
    · have hn : num_logs (op :: ops) = num_logs ops + 1 := by simp [num_logs, List.filter, hop]
      rw [hop] at h1
      simp only [if_true] at h1
      rw [hn] at hb
      have hmod : (s.last_log + 1) % U64 = s.last_log + 1 := Nat.mod_eq_of_lt (by omega)
      rw [hmod] at h1
      exact ih s1 evs1 hr hmon2 hack2 (by rw [h1]; omega)
        (step_window1 s s1 op ev hs hmon1 hack1 hL (fun _ => by simp only [U64] at hb; omega) hinv)

theorem window1_create_with (flag_mon b : Bool) (fac lvl : String) :
    Window1 (LogClient.create_with flag_mon b fac lvl) :=
  ⟨window_create_with _ _ _ _, by simp [LogClient.create_with]⟩

theorem do_log_returns (cfg : Config) (env : Env) (s : LogClient) (prio : clog_type)
    (msg : String) (hmon : cfg.clog_to_monitors = true) (hW : Window s)
    (hlen : s.log_queue.length ≤ s.last_log) (hL : s.last_log + 1 < 2 ^ 64)
    (henv : s.is_mon = false ∨ env.myname_is_mon = true) :
    ∃ s1 out, LogClient.do_log cfg env s prio msg = .ok (s1, out) := by
  have hmod : (s.last_log + 1) % U64 = s.last_log + 1 := Nat.mod_eq_of_lt (by simpa [U64] using hL)
  unfold LogClient.do_log
  simp only [hmon, if_true, hmod]
  by_cases hm : s.is_mon = true
  · have he : env.myname_is_mon = true := by
      rcases henv with h | h
      · rw [hm] at h; cases h
      · exact h
    have hpush := window_push s
      { who := env.myinst, stamp := env.now, seq := s.last_log + 1, prio := prio, msg := msg,
        facility := LogClient.get_log_facility s } hW hlen rfl
    obtain ⟨m2, s4, hd2, -⟩ := window_drain cfg _ hpush
    rw [if_pos hm, if_neg (by simp [he]), hd2]
    exact ⟨_, _, rfl⟩
  · rw [if_neg hm]
    exact ⟨_, _, rfl⟩
/-- What one call does to the queue: it removes some entries at the head or
adds at most one entry at the tail, never both. -/
theorem step_queue_shape (s s1 : LogClient) (op : Op) (ev : Event)
    (h : step s op = .ok (s1, ev)) :
    ∃ (k : Nat) (added : List LogEntry),
      s1.log_queue = s.log_queue.drop k ++ added ∧ (k = 0 ∨ added = []) ∧ added.length ≤ 1 ∧
      (∀ e ∈ added, e.seq = (s.last_log + 1) % U64 ∧ op.is_log = true) := by
  cases op with
  | log cfg env prio msg =>
    simp only [step] at h
    split at h
    · cases h
    · rename_i s2 out hd
      cases h
      obtain ⟨h1, -, h3⟩ := LogClient.do_log_spec _ _ _ _ _ _ _ hd
      by_cases hmon : cfg.clog_to_monitors = true
      · refine ⟨0, [out.entry], by rw [h3, if_pos hmon]; simp, Or.inl rfl, by simp, ?_⟩
        intro e he
        simp only [List.mem_singleton] at he
        subst he
        exact ⟨h1, rfl⟩
      · exact ⟨0, [], by rw [h3, if_neg hmon]; simp, Or.inl rfl, by simp, by simp⟩
  | drain cfg =>
    simp only [step, LogClient.get_mon_log_message] at h
    split at h
    · cases h
    · rename_i m s2 hd
      cases h
      have := LogClient.drain_frame _ _ _ _ hd
      exact ⟨0, [], by rw [this]; simp, Or.inl rfl, by simp, by simp⟩
  | ack cfg m =>
    simp only [step] at h
    cases h
    obtain ⟨k, -, hk⟩ := LogClient.handle_log_ack_frame cfg s m
    exact ⟨k, [], by rw [hk]; simp, Or.inr rfl, by simp, by simp⟩
  | reset =>
    simp only [step] at h
    cases h
    exact ⟨0, [], by simp [LogClient.reset_session], Or.inl rfl, by simp, by simp⟩

theorem step_increasing (s s1 : LogClient) (op : Op) (ev : Event)
    (h : step s op = .ok (s1, ev))
    (hb : op.is_log = true → s.last_log + 1 < U64)
    (hinc : StrictlyIncreasing s.log_queue) (hle : ∀ e ∈ s.log_queue, e.seq ≤ s.last_log) :
    StrictlyIncreasing s1.log_queue ∧ ∀ e ∈ s1.log_queue, e.seq ≤ s1.last_log := by
  obtain ⟨k, added, hq, -, hlen, hadd⟩ := step_queue_shape s s1 op ev h
  obtain ⟨hL, -⟩ := step_last_log s s1 op ev h
  have hLge : s.last_log ≤ s1.last_log ∧
      ∀ e ∈ added, e.seq = s.last_log + 1 ∧ s1.last_log = s.last_log + 1 := by
    cases hop : op.is_log
    · rw [hop] at hL
      simp only [Bool.false_eq_true, if_false] at hL
      refine ⟨by omega, ?_⟩
      intro e he
      have := (hadd e he).2
      rw [hop] at this; cases this
    · rw [hop] at hL
      simp only [if_true] at hL
      have hmod : (s.last_log + 1) % U64 = s.last_log + 1 := Nat.mod_eq_of_lt (hb hop)
      rw [hmod] at hL
      refine ⟨by omega, ?_⟩
      intro e he
      have := (hadd e he).1
      rw [hmod] at this
      exact ⟨this, hL⟩
  have hdrop_inc : List.Pairwise (fun a b : Nat => a < b) (seqs (s.log_queue.drop k)) := by
    unfold seqs
    rw [List.map_drop]
    exact List.Pairwise.sublist (List.drop_sublist _ _) hinc
  have hdrop_le : ∀ e ∈ s.log_queue.drop k, e.seq ≤ s.last_log :=
    fun e he => hle e (List.mem_of_mem_drop he)
  constructor
  · unfold StrictlyIncreasing seqs
    rw [hq, List.map_append, List.pairwise_append]
    refine ⟨hdrop_inc, ?_, ?_⟩
    · cases added with
      | nil => simp
      | cons e rest =>
        cases rest with
        | nil => simp
        | cons e2 rest2 => simp at hlen
    · intro a ha b hb2
      obtain ⟨ea, hea, rfl⟩ := List.mem_map.mp ha
      obtain ⟨eb, heb, rfl⟩ := List.mem_map.mp hb2
      have h1 := hdrop_le ea hea
      have h2 := (hLge.2 eb heb).1
      omega
  · intro e he
    rw [hq, List.mem_append] at he
    rcases he with he | he
    · have := hdrop_le e he
      omega
    · have := hLge.2 e he
      omega

theorem run_increasing (ops : List Op) (s s2 : LogClient) (evs : List Event)
    (h : run s ops = .ok (s2, evs))
    (hb : s.last_log + num_logs ops < U64)
    (hinc : StrictlyIncreasing s.log_queue) (hle : ∀ e ∈ s.log_queue, e.seq ≤ s.last_log) :
    StrictlyIncreasing s2.log_queue ∧ ∀ e ∈ s2.log_queue, e.seq ≤ s2.last_log := by
  induction ops generalizing s evs with
  | nil =>
    simp only [run] at h
    cases h
    exact ⟨hinc, hle⟩
  | cons op ops ih =>
    obtain ⟨s1, ev, evs1, hs, hr, rfl⟩ := run_cons s op ops s2 evs h
    obtain ⟨h1, -⟩ := step_last_log s s1 op ev hs
    cases hop : op.is_log
    · have hn : num_logs (op :: ops) = num_logs ops := by simp [num_logs, List.filter, hop]
      rw [hop] at h1
      simp only [Bool.false_eq_true, if_false] at h1
      rw [hn] at hb
      obtain ⟨i1, i2⟩ := step_increasing s s1 op ev hs (by simp [hop]) hinc hle
      exact ih s1 evs1 hr (by rw [h1]; exact hb) i1 i2
    · have hn : num_logs (op :: ops) = num_logs ops + 1 := by simp [num_logs, List.filter, hop]
      rw [hop] at h1
      simp only [if_true] at h1
      rw [hn] at hb
      have hmod : (s.last_log + 1) % U64 = s.last_log + 1 := Nat.mod_eq_of_lt (by omega)
      rw [hmod] at h1
      obtain ⟨i1, i2⟩ := step_increasing s s1 op ev hs (fun _ => by omega) hinc hle
      exact ih s1 evs1 hr (by rw [h1]; omega) i1 i2

theorem mem_take_drop_of_index {α : Type} (q : List α) (d n j : Nat) (hj : j < q.length)
    (h1 : d ≤ j) (h2 : j < d + n) : q[j] ∈ (q.drop d).take n := by
  rw [List.mem_iff_getElem?]
  refine ⟨j - d, ?_⟩
  have h3 : j - d < n := by omega
  have h4 : d + (j - d) = j := by omega
  simp [List.getElem?_take, h3, List.getElem?_drop, h4, hj]

theorem seq_of_index (q : List LogEntry) (a : Nat) (hq : seqs q = List.range' a q.length)
    (j : Nat) (hj : j < q.length) : q[j].seq = a + j := by
  have h1 : (seqs q)[j]? = some (q[j].seq) := by
    simp [seqs, List.getElem?_map, hj]
  rw [hq, List.getElem?_range' _ _ hj] at h1
  simp only [Nat.one_mul, Option.some.injEq] at h1
  omega
namespace LogClient

theorem getline_spec (ss : List Char) :
    '\n' ∉ (getline ss).1 ∧
    ((getline ss).2.2 = true → ss = (getline ss).1) ∧
    ((getline ss).2.2 = false → ss = (getline ss).1 ++ '\n' :: (getline ss).2.1) := by
  induction ss with
  | nil => simp [getline]
  | cons c rest ih =>
    by_cases hc : c = '\n'
    · subst hc
      simp [getline]
    · obtain ⟨h1, h2, h3⟩ := ih
      simp only [getline, hc, if_false]
      refine ⟨?_, ?_, ?_⟩
      · simp only [List.mem_cons, not_or]
        exact ⟨fun h => hc h.symm, h1⟩
      · intro h
        rw [← h2 h]
      · intro h
        rw [List.cons_append, ← h3 h]

end LogClient

theorem splitOn_no_sep (ss : List Char) (h : '\n' ∉ ss) : ss.splitOn '\n' = [ss] := by
  unfold List.splitOn
  apply List.splitOnP_eq_single
  intro x hx hp
  simp only [beq_iff_eq] at hp
  subst hp
  exact h hx

theorem splitOn_first_line (l rest : List Char) (h : '\n' ∉ l) :
    (l ++ '\n' :: rest).splitOn '\n' = l :: rest.splitOn '\n' := by
  unfold List.splitOn
  apply List.splitOnP_first
  · intro x hx hp
    simp only [beq_iff_eq] at hp
    subst hp
    exact h hx
  · simp

/-- The non-empty lines of a character list, as strings. -/
theorem lines_cases (ss : List Char) :
    ((LogClient.getline ss).2.2 = true ∧ ss.splitOn '\n' = [(LogClient.getline ss).1]) ∨
    ((LogClient.getline ss).2.2 = false ∧
      ss.splitOn '\n' = (LogClient.getline ss).1 :: (LogClient.getline ss).2.1.splitOn '\n' ∧
      (LogClient.getline ss).2.1.length < ss.length) := by
  obtain ⟨h1, h2, h3⟩ := LogClient.getline_spec ss
  cases he : (LogClient.getline ss).2.2
  · right
    have h := h3 he
    refine ⟨rfl, ?_, ?_⟩
    · conv_lhs => rw [h]
      exact splitOn_first_line _ _ h1
    · conv_rhs => rw [h]
      simp only [List.length_append, List.length_cons]
      omega
  · left
    have h := h2 he
    refine ⟨rfl, ?_⟩
    conv_lhs => rw [h]
    exact splitOn_no_sep _ h1

theorem do_log_loop_eq (cfg : Config) (envs : Nat → Env) (prio : clog_type)
    (fuel i : Nat) (ss : List Char) (s : LogClient) (outs : List LogClient.LogOut)
    (hfuel : ss.length < fuel) :
    LogClient.do_log_loop cfg envs prio fuel i ss s outs =
      some (LogClient.do_log_each cfg envs prio i s
        (((ss.splitOn '\n').filter (fun l => decide (l ≠ []))).map String.mk) outs) := by
  induction fuel generalizing i ss s outs with
  | zero => omega
  | succ fuel ih =>
    rw [LogClient.do_log_loop]
    rcases lines_cases ss with ⟨he, hsplit⟩ | ⟨he, hsplit, hlen⟩
    · rw [hsplit, he]
      by_cases hl : (LogClient.getline ss).1 = []
      · simp [hl, LogClient.do_log_each]
      · simp only [ne_eq, hl, not_false_eq_true, if_true, List.filter_cons, decide_True,
          List.filter_nil, List.map_cons, List.map_nil, LogClient.do_log_each]
        cases LogClient.do_log cfg (envs i) s prio (String.mk (LogClient.getline ss).1) with
        | abort f => rfl
        | ok r => rfl
    · rw [hsplit, he]
      by_cases hl : (LogClient.getline ss).1 = []
      · simp only [ne_eq, hl, not_true_eq_false, if_false, Bool.false_eq_true, List.filter_cons,
          decide_False]
        exact ih i _ s outs (by omega)
      · simp only [ne_eq, hl, not_false_eq_true, if_true, Bool.false_eq_true, if_false,
          List.filter_cons, decide_True, List.map_cons, LogClient.do_log_each]
        cases LogClient.do_log cfg (envs i) s prio (String.mk (LogClient.getline ss).1) with
        | abort f => rfl
        | ok r =>
          obtain ⟨s1, out⟩ := r
          exact ih (i + 1) _ s1 (outs ++ [out]) (by omega)
theorem do_log_entry (cfg : Config) (env : Env) (s s1 : LogClient) (prio : clog_type)
    (msg : String) (out : LogClient.LogOut)
    (h : LogClient.do_log cfg env s prio msg = .ok (s1, out)) :
    out.entry =
      { who := env.myinst, stamp := env.now, seq := (s.last_log + 1) % U64, prio := prio,
        msg := msg, facility := LogClient.get_log_facility s } ∧
    s1.is_mon = s.is_mon := by
  unfold LogClient.do_log at h
  simp only at h
  split at h
  · split at h
    · split at h
      · cases h
      · split at h
        · cases h
        · rename_i log s3 hd
          cases h
          have hf := LogClient.drain_frame _ _ _ _ hd
          exact ⟨rfl, by rw [hf]⟩
    · cases h
      exact ⟨rfl, rfl⟩
  · cases h
    exact ⟨rfl, rfl⟩

theorem do_log_not_mon (cfg : Config) (env : Env) (s : LogClient) (prio : clog_type)
    (msg : String) (hm : s.is_mon = false) :
    ∃ s1 out, LogClient.do_log cfg env s prio msg = .ok (s1, out) := by
  unfold LogClient.do_log
  simp only [hm, Bool.false_eq_true, if_false]
  split
  · exact ⟨_, _, rfl⟩
  · exact ⟨_, _, rfl⟩

theorem do_log_each_total (cfg : Config) (envs : Nat → Env) (prio : clog_type)
    (lines : List String) (i : Nat) (s : LogClient) (outs0 : List LogClient.LogOut)
    (hm : s.is_mon = false) :
    ∃ s1 outs, LogClient.do_log_each cfg envs prio i s lines outs0 = .ok (s1, outs) := by
  induction lines generalizing i s outs0 with
  | nil => exact ⟨_, _, rfl⟩
  | cons l rest ih =>
    obtain ⟨s1, out, h⟩ := do_log_not_mon cfg (envs i) s prio l hm
    have hm1 := (do_log_entry _ _ _ _ _ _ _ h).2
    rw [hm] at hm1
    obtain ⟨s2, outs, h2⟩ := ih (i + 1) s1 (outs0 ++ [out]) hm1
    exact ⟨s2, outs, by rw [LogClient.do_log_each, h]; exact h2⟩

theorem do_log_each_spec (cfg : Config) (envs : Nat → Env) (prio : clog_type)
    (lines : List String) (i : Nat) (s s1 : LogClient) (outs0 outs : List LogClient.LogOut)
    (h : LogClient.do_log_each cfg envs prio i s lines outs0 = .ok (s1, outs))
    (hb : s.last_log + lines.length < U64) :
    ∃ new : List LogClient.LogOut,
      outs = outs0 ++ new ∧
      new.map (fun o => o.entry.msg) = lines ∧
      new.map (fun o => o.entry.seq) = List.range' (s.last_log + 1) lines.length ∧
      (∀ o ∈ new, o.entry.prio = prio) ∧
      s1.last_log = s.last_log + lines.length ∧
      s1.log_queue =
        (if cfg.clog_to_monitors then s.log_queue ++ new.map (fun o => o.entry)
         else s.log_queue) := by
  induction lines generalizing i s outs0 with
  | nil =>
    simp only [LogClient.do_log_each] at h
    cases h
    exact ⟨[], by simp, rfl, rfl, by simp, rfl, by simp⟩
  | cons l rest ih =>
    rw [LogClient.do_log_each] at h
    split at h
    · cases h
    · rename_i sa out hd
      obtain ⟨he, -⟩ := do_log_entry _ _ _ _ _ _ _ hd
      obtain ⟨-, hL, hq⟩ := LogClient.do_log_spec _ _ _ _ _ _ _ hd
      simp only [List.length_cons] at hb
      have hmod : (s.last_log + 1) % U64 = s.last_log + 1 := Nat.mod_eq_of_lt (by omega)
      rw [hmod] at he hL
      obtain ⟨new, h1, h2, h3, h4, h5, h6⟩ := ih (i + 1) sa (outs0 ++ [out]) h (by rw [hL]; omega)
      refine ⟨out :: new, by rw [h1]; simp, ?_, ?_, ?_, ?_, ?_⟩
      · simp [h2, he]
      · simp only [List.map_cons, List.length_cons, List.range'_succ, h3, hL, he]
      · intro o ho
        rcases List.mem_cons.mp ho with rfl | ho
        · rw [he]
        · exact h4 o ho
      · rw [h5, hL, List.length_cons]; omega
      · rw [h6, hq]
        split <;> simp

theorem splitOn_lines_no_sep (n : Nat) (ss : List Char) (hn : ss.length < n) :
    ∀ l ∈ ss.splitOn '\n', '\n' ∉ l := by
  induction n generalizing ss with
  | zero => omega
  | succ n ih =>
    obtain ⟨h1, -, -⟩ := LogClient.getline_spec ss
    rcases lines_cases ss with ⟨-, hsplit⟩ | ⟨-, hsplit, hlen⟩
    · intro l hl
      rw [hsplit, List.mem_singleton] at hl
      rw [hl]; exact h1
    · intro l hl
      rw [hsplit, List.mem_cons] at hl
      rcases hl with hl | hl
      · rw [hl]; exact h1
      · exact ih _ (by omega) l hl

theorem nonempty_lines_spec (text : String) :
    ∀ l ∈ nonempty_lines text, l ≠ "" ∧ '\n' ∉ l.data := by
  intro l hl
  simp only [nonempty_lines, List.mem_map, List.mem_filter, decide_eq_true_eq] at hl
  obtain ⟨cs, ⟨hmem, hne⟩, rfl⟩ := hl
  refine ⟨?_, splitOn_lines_no_sep _ _ (Nat.lt_succ_self _) cs hmem⟩
  intro h
  apply hne
  have := congrArg String.data h
  simpa using this

/-! ## Runs inside the safe envelope -/

/-- After a run whose `log()` calls all had monitor delivery enabled and whose
acks were each rejected or acknowledged nothing beyond `last_log_sent`, the
drain returns: none of its assertions trips. -/
theorem drain_returns_when_acks_in_window (flag_mon b : Bool) (fac lvl : String)
    (ops : List Op) (s : LogClient) (evs : List Event) (cfg : Config)
    (hrun : run (LogClient.create_with flag_mon b fac lvl) ops = .ok (s, evs))
    (hmon : ∀ op ∈ ops, op.monitors_on = true)
    (hacks : acks_in_window (LogClient.create_with flag_mon b fac lvl) ops = true)
    (hlogs : num_logs ops < 2 ^ 64) :
    ∃ (m : Message) (s1 : LogClient),
      LogClient.get_mon_log_message cfg s = .ok (m, s1) := by
  have hb : (LogClient.create_with flag_mon b fac lvl).last_log + num_logs ops < U64 := by
    simp only [LogClient.create_with, U64, Nat.zero_add]; exact hlogs
  have hinv := run_window1 ops _ s evs hrun hmon hacks hb (window1_create_with _ _ _ _)
  obtain ⟨m, s1, hd, -⟩ := window_drain cfg s hinv.1
  exact ⟨m, s1, hd⟩

/-- After a run whose `log()` calls all had monitor delivery enabled, each
queued entry's seq is exactly one more than the seq of the entry before it. -/
theorem no_gaps_when_delivery_enabled (flag_mon b : Bool) (fac lvl : String)
    (ops : List Op) (s : LogClient) (evs : List Event)
    (hrun : run (LogClient.create_with flag_mon b fac lvl) ops = .ok (s, evs))
    (hmon : ∀ op ∈ ops, op.monitors_on = true)
    (hlogs : num_logs ops < 2 ^ 64) :
    NoGaps s.log_queue := by
  have hb : (LogClient.create_with flag_mon b fac lvl).last_log + num_logs ops < U64 := by
    simp only [LogClient.create_with, U64, Nat.zero_add]; exact hlogs
  have hinv := run_queue_inv ops _ s evs hrun hmon hb (queue_inv_create_with _ _ _ _)
  exact no_gaps_of_range s.log_queue _ hinv.1.2

/-! ## The properties -/


/-- C1 (capped draining, the scenario cap = 3, n = 7, evaluated on the code):
after seven `log()` calls on a fresh client that is not self-addressed, four
consecutive drains return the batches with seqs [1,2,3], [3,4,5], [5,6] and
[6], and `last_log_sent` ends at 6.  The second batch starts again at the
entry sent last (seq 3) instead of at seq 4, the fourth drain is not empty,
and seq 7 is never reached: the scan loop stops at the first entry with
`seq >= last_log_sent` instead of `seq > last_log_sent`. -/
theorem C1_capped_drain_resends_last_sent :
    drains_of (run fresh_osd
        (List.replicate 7 (log_op 3) ++ List.replicate 4 (Op.drain (cfg_cap 3)))) =
      some ([some [1, 2, 3], some [3, 4, 5], some [5, 6], some [6]], 6) := by
  have hlogs : run fresh_osd (List.replicate 7 (log_op 3)) =
      .ok (state_with [1, 2, 3, 4, 5, 6, 7] 0 7,
        List.map (fun n => Event.logged ⟨entry_at n, false, none⟩) [1, 2, 3, 4, 5, 6, 7]) := rfl
  have h1 : step (state_with [1, 2, 3, 4, 5, 6, 7] 0 7) (Op.drain (cfg_cap 3)) =
      .ok (state_with [1, 2, 3, 4, 5, 6, 7] 3 7, .drained (.MLog (List.map entry_at [1, 2, 3]))) :=
    rfl
  have h2 : step (state_with [1, 2, 3, 4, 5, 6, 7] 3 7) (Op.drain (cfg_cap 3)) =
      .ok (state_with [1, 2, 3, 4, 5, 6, 7] 5 7, .drained (.MLog (List.map entry_at [3, 4, 5]))) :=
    rfl
  have h3 : step (state_with [1, 2, 3, 4, 5, 6, 7] 5 7) (Op.drain (cfg_cap 3)) =
      .ok (state_with [1, 2, 3, 4, 5, 6, 7] 6 7, .drained (.MLog (List.map entry_at [5, 6]))) :=
    rfl
  have h4 : step (state_with [1, 2, 3, 4, 5, 6, 7] 6 7) (Op.drain (cfg_cap 3)) =
      .ok (state_with [1, 2, 3, 4, 5, 6, 7] 6 7, .drained (.MLog (List.map entry_at [6]))) :=
    rfl
  have hrun : run fresh_osd
      (List.replicate 7 (log_op 3) ++ List.replicate 4 (Op.drain (cfg_cap 3))) = _ :=
    run_append_ok hlogs
      (run_cons_ok h1 (run_cons_ok h2 (run_cons_ok h3 (run_cons_ok h4 (run_nil _)))))
  rw [hrun]
  rfl

/-- C2 (acknowledgment with the matching facility, evaluated on the code): with
entries 1 and 2 queued and the client using facility "daemon", an ack through
seq 1 that carries facility "daemon", or an empty facility (for which the
configured default "daemon" is substituted), returns false and leaves the
queue untouched, where the claim promises true and the queue trimmed to [2]. -/
theorem C2_matching_facility_ack_is_rejected :
    LogClient.handle_log_ack (cfg_cap 3) (state_with [1, 2] 2 2) ⟨"daemon", 1⟩ =
      (false, state_with [1, 2] 2 2) ∧
    LogClient.handle_log_ack (cfg_cap 3) (state_with [1, 2] 2 2) ⟨"", 1⟩ =
      (false, state_with [1, 2] 2 2) :=
  ⟨rfl, rfl⟩

/-- C3 (acknowledgment with a mismatched facility, evaluated on the code): with
entries 1 and 2 queued and the client using facility "daemon", an ack through
seq 1 that carries facility "local0" returns true and erases entry 1, where
the claim promises false and an unchanged state. -/
theorem C3_mismatched_facility_ack_is_accepted :
    LogClient.handle_log_ack (cfg_cap 3) (state_with [1, 2] 2 2) ⟨"local0", 1⟩ =
      (true, state_with [2] 2 2) := by
  rfl

/-- C4 (resend of the unacknowledged window): in every state reached from a
fresh client (either constructor, self-addressed or not) by a run of `log()`
calls with monitor delivery enabled, drains, acks (any facility, any seq) and
session resets, in which the queue is not empty, `reset_session` followed by
a drain returns a non-empty batch whose first entry is the oldest queued
entry and which equals the first `min(queueLength, cap)` entries of the queue
when the cap is positive and the whole queue when the cap is 0.  Stated for
runs with fewer than `2^64` `log()` calls and queues shorter than `2^32`, the
ranges of the 64-bit counters and of the 32-bit `num_unsent`. -/
theorem C4_reset_then_drain_resends_window (flag_mon b : Bool) (fac lvl : String)
    (ops : List Op) (s : LogClient) (evs : List Event) (cfg : Config)
    (hrun : run (LogClient.create_with flag_mon b fac lvl) ops = .ok (s, evs))
    (hmon : ∀ op ∈ ops, op.monitors_on = true)
    (hlogs : num_logs ops < 2 ^ 64)
    (hq : s.log_queue ≠ [])
    (hfit : s.log_queue.length < 2 ^ 32) :
    ∃ (batch : List LogEntry) (s1 : LogClient),
      LogClient.get_mon_log_message cfg (LogClient.reset_session s) = .ok (.MLog batch, s1) ∧
      batch ≠ [] ∧
      batch.head? = s.log_queue.head? ∧
      (cfg.mon_client_max_log_entries_per_message > 0 →
        batch = s.log_queue.take
          (min s.log_queue.length cfg.mon_client_max_log_entries_per_message.toNat)) ∧
      (cfg.mon_client_max_log_entries_per_message = 0 → batch = s.log_queue) := by
  have hb : (LogClient.create_with flag_mon b fac lvl).last_log + num_logs ops < U64 := by
    simp only [LogClient.create_with, U64, Nat.zero_add]; exact hlogs
  have hinv := run_queue_inv ops _ s evs hrun hmon hb (queue_inv_create_with _ _ _ _)
  have hL : s.last_log < 2 ^ 64 := by
    have := (run_last_log ops _ s evs hrun hb).1
    simp only [LogClient.create_with, Nat.zero_add] at this
    omega
  have hwf := wellformed_reset s hinv hL
  have hres := reset_session_of_inv s hinv hL
  have hpos : 0 < s.log_queue.length := List.length_pos.mpr hq
  have hl := hinv.2
  have hq1 : (LogClient.reset_session s).log_queue ≠ [] := hq
  have hls : (LogClient.reset_session s).last_log_sent = s.last_log - s.log_queue.length := by
    rw [hres]
  have hLL : (LogClient.reset_session s).last_log = s.last_log := rfl
  have hne : (LogClient.reset_session s).last_log_sent ≠ (LogClient.reset_session s).last_log := by
    rw [hls, hLL]; omega
  obtain ⟨batch, hbatch, hlen, hdrain⟩ :=
    LogClient.drain_wellformed cfg _ hwf hq1 hne
  have hun : LogClient.num_unsent (LogClient.reset_session s) = s.log_queue.length := by
    rw [LogClient.num_unsent_eq _ hwf.2.1 (by rw [hls, hLL]; omega), hls, hLL]
    omega
  have hdrop : batch = s.log_queue.take (LogClient.num_send cfg (LogClient.reset_session s)) := by
    rw [hbatch, hls, hLL]
    have h0 : s.last_log - s.log_queue.length - (s.last_log + 1 - s.log_queue.length) = 0 := by
      show s.last_log - s.log_queue.length -
        (s.last_log + 1 - (LogClient.reset_session s).log_queue.length) = 0
      show s.last_log - s.log_queue.length - (s.last_log + 1 - s.log_queue.length) = 0
      omega
    show List.take _ (List.drop (s.last_log - s.log_queue.length -
      (s.last_log + 1 - s.log_queue.length)) s.log_queue) = _
    rw [h0, List.drop_zero]
  have hns_pos : 0 < LogClient.num_send cfg (LogClient.reset_session s) := by
    unfold LogClient.num_send
    rw [hun]
    split
    · rename_i hc
      exact lt_min hpos (by omega)
    · exact hpos
  refine ⟨batch, _, hdrain, ?_, ?_, ?_, ?_⟩
  · intro hnil
    rw [hnil] at hlen
    simp only [List.length_nil] at hlen
    omega
  · rw [hdrop]
    obtain ⟨e, rest, hqq⟩ := List.exists_cons_of_ne_nil hq
    obtain ⟨n, hn⟩ : ∃ n, LogClient.num_send cfg (LogClient.reset_session s) = n + 1 :=
      ⟨_, (Nat.succ_pred_eq_of_pos hns_pos).symm⟩
    rw [hn, hqq]
    simp
  · intro hcap
    rw [hdrop, LogClient.num_send, if_pos hcap, hun]
  · intro hcap
    rw [hdrop, LogClient.num_send, if_neg (by omega), hun, List.take_length]

/-- C4 witness, the scenario of the spec: seven entries logged, ack through 5
accepted, which leaves [6, 7] queued; after `reset_session` the drain with
cap 3 returns a non-empty batch starting at the oldest queued entry. -/
theorem C4_reset_then_drain_witness :
    run (LogClient.create_with false false "daemon" "info")
        (List.replicate 7 (log_op 3) ++ [Op.ack (cfg_cap 3) ⟨"local0", 5⟩]) =
      .ok (state_with [6, 7] 0 7, List.map logged_at [1, 2, 3, 4, 5, 6, 7] ++ [Event.acked true]) ∧
    (state_with [6, 7] 0 7).log_queue ≠ [] ∧
    ∃ (batch : List LogEntry) (s1 : LogClient),
      LogClient.get_mon_log_message (cfg_cap 3) (LogClient.reset_session (state_with [6, 7] 0 7)) =
        .ok (.MLog batch, s1) ∧
      batch ≠ [] ∧
      batch.head? = (state_with [6, 7] 0 7).log_queue.head? ∧
      ((cfg_cap 3).mon_client_max_log_entries_per_message > 0 →
        batch = (state_with [6, 7] 0 7).log_queue.take
          (min (state_with [6, 7] 0 7).log_queue.length
            (cfg_cap 3).mon_client_max_log_entries_per_message.toNat)) ∧
      ((cfg_cap 3).mon_client_max_log_entries_per_message = 0 →
        batch = (state_with [6, 7] 0 7).log_queue) :=
  ⟨rfl, by decide,
    C4_reset_then_drain_resends_window false false "daemon" "info"
      (List.replicate 7 (log_op 3) ++ [Op.ack (cfg_cap 3) ⟨"local0", 5⟩])
      (state_with [6, 7] 0 7)
      (List.map logged_at [1, 2, 3, 4, 5, 6, 7] ++ [Event.acked true])
      (cfg_cap 3) rfl (by decide) (by decide) (by decide) (by decide)⟩

/-- C5 (sequence assignment): for every run of `log()`, drain, ack and
session-reset calls from a fresh client (either constructor, self-addressed
or not, whatever the configuration at each call), the seqs of the entries
created by the `log()` calls are, in call order, exactly 1, 2, ..., k, and
the counter `last_log` equals the number of `log()` calls made, so no other
call changes it.  Stated for runs with fewer than `2^64` `log()` calls, the
range of the 64-bit counter. -/
theorem C5_log_assigns_consecutive_seqs (flag_mon b : Bool) (fac lvl : String)
    (ops : List Op) (s : LogClient) (evs : List Event)
    (hrun : run (LogClient.create_with flag_mon b fac lvl) ops = .ok (s, evs))
    (hlogs : num_logs ops < 2 ^ 64) :
    logged_seqs evs = List.range' 1 (num_logs ops) ∧ s.last_log = num_logs ops := by
  have hb : (LogClient.create_with flag_mon b fac lvl).last_log + num_logs ops < U64 := by
    simp only [LogClient.create_with, U64, Nat.zero_add]; exact hlogs
  obtain ⟨h1, h2⟩ := run_last_log ops _ s evs hrun hb
  simp only [LogClient.create_with, Nat.zero_add] at h1 h2
  exact ⟨h2, h1⟩

/-- C5 witness: three `log()` calls (the last one with monitor delivery off
and mirroring on) interleaved with a drain, an ack and a session reset get the
seqs 1, 2, 3. -/
theorem C5_log_assigns_consecutive_seqs_witness :
    num_logs [log_op 3, Op.drain (cfg_cap 3), log_op 3, Op.ack (cfg_cap 3) ⟨"local0", 1⟩,
        Op.reset, Op.log cfg_off env_osd .CLOG_ERROR "quiet"] < 2 ^ 64 ∧
    logged_seqs [logged_at 1, .drained (.MLog [entry_at 1]), logged_at 2, .acked true, .reset,
        .logged ⟨{ entry_at 3 with prio := .CLOG_ERROR, msg := "quiet" }, false, none⟩] =
      [1, 2, 3] ∧
    (state_with [2] 1 3).last_log = 3 :=
  ⟨by decide,
    C5_log_assigns_consecutive_seqs false false "daemon" "info"
      [log_op 3, Op.drain (cfg_cap 3), log_op 3, Op.ack (cfg_cap 3) ⟨"local0", 1⟩,
        Op.reset, Op.log cfg_off env_osd .CLOG_ERROR "quiet"]
      (state_with [2] 1 3)
      [logged_at 1, .drained (.MLog [entry_at 1]), logged_at 2, .acked true, .reset,
        .logged ⟨{ entry_at 3 with prio := .CLOG_ERROR, msg := "quiet" }, false, none⟩]
      rfl (by decide)⟩

/-- C6 (no immediate re-send, evaluated on the code): with the cap at 0
(unbounded), after log, drain, log on a fresh client that is not
self-addressed one entry is unsent; the next drain returns a non-empty batch
(seq 1 again, not seq 2), and the drain immediately after it returns the same
non-empty batch instead of nothing; `last_log_sent` stays at 1. -/
theorem C6_second_drain_resends :
    drains_of (run fresh_osd
        [log_op 0, Op.drain (cfg_cap 0), log_op 0, Op.drain (cfg_cap 0), Op.drain (cfg_cap 0)]) =
      some ([some [1], some [1], some [1]], 1) := by
  rfl

/-- C7 (session reset): in every state reached from a fresh client by a run
of calls whose `log()` calls all had monitor delivery enabled, the queue is
no longer than `last_log`, so `last_log - queueLength` does not wrap;
`reset_session` changes only `last_log_sent`, sets it to that difference, and
the new value is `oldest.seq - 1` when the queue is not empty and `last_log`
when it is empty.  Stated for runs with fewer than `2^64` `log()` calls, the
range of the 64-bit counter. -/
theorem C7_reset_session_rewinds_to_oldest (flag_mon b : Bool) (fac lvl : String)
    (ops : List Op) (s : LogClient) (evs : List Event)
    (hrun : run (LogClient.create_with flag_mon b fac lvl) ops = .ok (s, evs))
    (hmon : ∀ op ∈ ops, op.monitors_on = true)
    (hlogs : num_logs ops < 2 ^ 64) :
    s.log_queue.length ≤ s.last_log ∧
    LogClient.reset_session s = { s with last_log_sent := s.last_log - s.log_queue.length } ∧
    (∀ e ∈ s.log_queue.head?,
      1 ≤ e.seq ∧ (LogClient.reset_session s).last_log_sent = e.seq - 1) ∧
    (s.log_queue = [] → (LogClient.reset_session s).last_log_sent = s.last_log) := by
  have hb : (LogClient.create_with flag_mon b fac lvl).last_log + num_logs ops < U64 := by
    simp only [LogClient.create_with, U64, Nat.zero_add]; exact hlogs
  have hinv := run_queue_inv ops _ s evs hrun hmon hb (queue_inv_create_with _ _ _ _)
  have hL : s.last_log < 2 ^ 64 := by
    have := (run_last_log ops _ s evs hrun hb).1
    simp only [LogClient.create_with, Nat.zero_add] at this
    omega
  have hres := reset_session_of_inv s hinv hL
  refine ⟨hinv.2, hres, ?_, ?_⟩
  · intro e he
    have h := head_seq_of_inv s hinv e he
    have hl := hinv.2
    rw [hres]
    simp only
    omega
  · intro hq
    rw [hres]
    simp [hq]

/-- C7 witness: seven entries logged and an ack through 5 accepted leave
[6, 7] queued; `reset_session` rewinds `last_log_sent` to 5. -/
theorem C7_reset_session_witness :
    run (LogClient.create_with false false "daemon" "info")
        (List.replicate 7 (log_op 3) ++ [Op.ack (cfg_cap 3) ⟨"local0", 5⟩]) =
      .ok (state_with [6, 7] 0 7, List.map logged_at [1, 2, 3, 4, 5, 6, 7] ++ [Event.acked true]) ∧
    (∀ op ∈ List.replicate 7 (log_op 3) ++ [Op.ack (cfg_cap 3) ⟨"local0", 5⟩],
      op.monitors_on = true) ∧
    LogClient.reset_session (state_with [6, 7] 0 7) = state_with [6, 7] 5 7 :=
  ⟨rfl, by decide,
    (C7_reset_session_rewinds_to_oldest false false "daemon" "info"
      (List.replicate 7 (log_op 3) ++ [Op.ack (cfg_cap 3) ⟨"local0", 5⟩])
      (state_with [6, 7] 0 7)
      (List.map logged_at [1, 2, 3, 4, 5, 6, 7] ++ [Event.acked true])
      rfl (by decide) (by decide)).2.1⟩

/-- C8 (idempotence of the acknowledgment): for every configuration, state
and ack message, handling the same ack a second time returns the same boolean
and leaves the state exactly as the first call left it. -/
theorem C8_handle_log_ack_idempotent (cfg : Config) (s : LogClient) (m : MLogAck) :
    LogClient.handle_log_ack cfg (LogClient.handle_log_ack cfg s m).2 m =
      LogClient.handle_log_ack cfg s m := by
  unfold LogClient.handle_log_ack
  simp only
  by_cases hf : (if m.facility = "" then cfg.clog_to_syslog_facility else m.facility) =
      LogClient.get_log_facility s
  · simp [hf]
  · have hf2 : ¬ (if m.facility = "" then cfg.clog_to_syslog_facility else m.facility) =
        LogClient.get_log_facility
          { s with log_queue := LogClient.erase_acked m.last s.log_queue } := hf
    rw [if_neg hf]
    simp only
    rw [if_neg hf2]
    simp [LogClient.erase_acked_idem]

/-- C9 (batch size and emptiness): in every well-formed state the drain
returns (no assertion trips); it returns `NULL` exactly when the queue is
empty or `last_log_sent = last_log`; otherwise the batch is not empty and has
exactly `min(numUnsent, cap)` entries when the cap is positive and exactly
`numUnsent` entries when the cap is 0, with
`numUnsent = last_log - last_log_sent`.  Stated for `numUnsent < 2^32`, the
range of the 32-bit `num_unsent`. -/
theorem C9_batch_size_and_emptiness (cfg : Config) (s : LogClient) (hwf : WellFormed s)
    (hfit : s.last_log - s.last_log_sent < 2 ^ 32) :
    ∃ (m : Message) (s1 : LogClient),
      LogClient._get_mon_log_message cfg s = .ok (m, s1) ∧
      (m = .NULL ↔ (s.log_queue = [] ∨ s.last_log_sent = s.last_log)) ∧
      ∀ batch, m = .MLog batch →
        batch ≠ [] ∧
        (cfg.mon_client_max_log_entries_per_message > 0 →
          batch.length = min (s.last_log - s.last_log_sent)
            cfg.mon_client_max_log_entries_per_message.toNat) ∧
        (cfg.mon_client_max_log_entries_per_message = 0 →
          batch.length = s.last_log - s.last_log_sent) := by
  by_cases hq : s.log_queue = []
  · refine ⟨.NULL, s, by simp [LogClient._get_mon_log_message, hq], by simp [hq], ?_⟩
    intro batch h; cases h
  by_cases hne : s.last_log_sent = s.last_log
  · refine ⟨.NULL, s, by simp [LogClient._get_mon_log_message, hq, hne], by simp [hne], ?_⟩
    intro batch h; cases h
  obtain ⟨batch, -, hlen, hrun⟩ := LogClient.drain_wellformed cfg s hwf hq hne
  have hun := LogClient.num_unsent_eq s hwf.2.1 hfit
  have hlt : s.last_log_sent < s.last_log := lt_of_le_of_ne hwf.2.1 hne
  refine ⟨_, _, hrun, by simp [hq, hne], ?_⟩
  intro b hb
  cases hb
  refine ⟨?_, ?_, ?_⟩
  · intro hnil
    rw [hnil] at hlen
    simp only [List.length_nil, LogClient.num_send, hun] at hlen
    split at hlen <;> omega
  · intro hcap
    rw [hlen, LogClient.num_send, if_pos hcap, hun]
  · intro hcap
    rw [hlen, LogClient.num_send, if_neg (by omega), hun]

/-- C9 witness: entries 1, 2, 3 queued, entry 1 sent, cap 2. -/
theorem C9_batch_size_witness :
    WellFormed (state_with [1, 2, 3] 1 3) ∧
    ∃ (m : Message) (s1 : LogClient),
      LogClient._get_mon_log_message (cfg_cap 2) (state_with [1, 2, 3] 1 3) = .ok (m, s1) ∧
      (m = .NULL ↔ ((state_with [1, 2, 3] 1 3).log_queue = [] ∨
        (state_with [1, 2, 3] 1 3).last_log_sent = (state_with [1, 2, 3] 1 3).last_log)) ∧
      ∀ batch, m = .MLog batch →
        batch ≠ [] ∧
        ((cfg_cap 2).mon_client_max_log_entries_per_message > 0 →
          batch.length = min ((state_with [1, 2, 3] 1 3).last_log -
              (state_with [1, 2, 3] 1 3).last_log_sent)
            (cfg_cap 2).mon_client_max_log_entries_per_message.toNat) ∧
        ((cfg_cap 2).mon_client_max_log_entries_per_message = 0 →
          batch.length = (state_with [1, 2, 3] 1 3).last_log -
            (state_with [1, 2, 3] 1 3).last_log_sent) :=
  ⟨by decide, C9_batch_size_and_emptiness (cfg_cap 2) (state_with [1, 2, 3] 1 3) (by decide)
    (by decide)⟩

/-- C10 (the drain copies, it does not move): in every well-formed state the
drain returns (no assertion trips) and leaves the queue and `last_log`
unchanged; when it returns `NULL` or an empty batch the state is unchanged
altogether, and when the batch is not empty the only change is that
`last_log_sent` becomes the seq of the last entry of the batch. -/
theorem C10_drain_copies_not_moves (cfg : Config) (s : LogClient) (hwf : WellFormed s) :
    ∃ (m : Message) (s1 : LogClient),
      LogClient._get_mon_log_message cfg s = .ok (m, s1) ∧
      s1.log_queue = s.log_queue ∧ s1.last_log = s.last_log ∧
      (m = .NULL → s1 = s) ∧
      ∀ batch, m = .MLog batch →
        (batch = [] → s1 = s) ∧
        (∀ e, batch.getLast? = some e → s1 = { s with last_log_sent := e.seq }) := by
  by_cases hq : s.log_queue = []
  · refine ⟨.NULL, s, by simp [LogClient._get_mon_log_message, hq], rfl, rfl, fun _ => rfl, ?_⟩
    intro batch h; cases h
  by_cases hne : s.last_log_sent = s.last_log
  · refine ⟨.NULL, s, by simp [LogClient._get_mon_log_message, hq, hne], rfl, rfl,
      fun _ => rfl, ?_⟩
    intro batch h; cases h
  obtain ⟨batch, -, -, hrun⟩ := LogClient.drain_wellformed cfg s hwf hq hne
  refine ⟨_, _, hrun, rfl, rfl, (by intro h; cases h), ?_⟩
  intro b hb
  cases hb
  refine ⟨?_, ?_⟩
  · intro hnil
    simp [hnil]
  · intro e he
    simp [he]

/-- C10 witness: entries 1, 2, 3 queued, entry 1 sent, cap 2. -/
theorem C10_drain_copies_witness :
    WellFormed (state_with [1, 2, 3] 1 3) ∧
    ∃ (m : Message) (s1 : LogClient),
      LogClient._get_mon_log_message (cfg_cap 2) (state_with [1, 2, 3] 1 3) = .ok (m, s1) ∧
      s1.log_queue = (state_with [1, 2, 3] 1 3).log_queue ∧
      s1.last_log = (state_with [1, 2, 3] 1 3).last_log ∧
      (m = .NULL → s1 = state_with [1, 2, 3] 1 3) ∧
      ∀ batch, m = .MLog batch →
        (batch = [] → s1 = state_with [1, 2, 3] 1 3) ∧
        (∀ e, batch.getLast? = some e →
          s1 = { state_with [1, 2, 3] 1 3 with last_log_sent := e.seq }) :=
  ⟨by decide, C10_drain_copies_not_moves (cfg_cap 2) (state_with [1, 2, 3] 1 3) (by decide)⟩

/-- C11 counterexample: after one `log()` call and an accepted ack through
seq 1 (no drain in between) the queue is empty and `last_log_sent = 0`, so no
queued entry has a seq greater than `last_log_sent`, yet `are_pending`
returns true because `last_log = 1 > 0`. -/
theorem C11_pending_with_empty_queue :
    run fresh_osd [log_op 3, Op.ack (cfg_cap 3) ⟨"local0", 1⟩] =
      .ok (state_with [] 0 1, [logged_at 1, Event.acked true]) ∧
    LogClient.are_pending (state_with [] 0 1) = true ∧
    ¬ ∃ e ∈ (state_with [] 0 1).log_queue, e.seq > (state_with [] 0 1).last_log_sent := by
  refine ⟨rfl, rfl, ?_⟩
  simp [state_with]

/-- C11 (amended): `are_pending` is a pure read (it returns a boolean and no
state) and returns true exactly when `last_log > last_log_sent`.  In every
state reached from a fresh client by a run of `log()` calls with monitor
delivery enabled, drains, acks (any facility, any seq) and session resets, it
returns true whenever the queue contains an entry with seq greater than
`last_log_sent`, and when the queue is not empty it returns true only then.
Stated for runs with fewer than `2^64` `log()` calls. -/
theorem C11_are_pending_iff_unsent_queued (flag_mon b : Bool) (fac lvl : String)
    (ops : List Op) (s : LogClient) (evs : List Event)
    (hrun : run (LogClient.create_with flag_mon b fac lvl) ops = .ok (s, evs))
    (hmon : ∀ op ∈ ops, op.monitors_on = true)
    (hlogs : num_logs ops < 2 ^ 64) :
    (LogClient.are_pending s = true ↔ s.last_log > s.last_log_sent) ∧
    ((∃ e ∈ s.log_queue, e.seq > s.last_log_sent) → LogClient.are_pending s = true) ∧
    (s.log_queue ≠ [] →
      (LogClient.are_pending s = true ↔ ∃ e ∈ s.log_queue, e.seq > s.last_log_sent)) := by
  have hb : (LogClient.create_with flag_mon b fac lvl).last_log + num_logs ops < U64 := by
    simp only [LogClient.create_with, U64, Nat.zero_add]; exact hlogs
  obtain ⟨⟨hlen, hseqs⟩, hl⟩ := run_queue_inv ops _ s evs hrun hmon hb (queue_inv_create_with _ _ _ _)
  have hpend : LogClient.are_pending s = true ↔ s.last_log > s.last_log_sent := by
    simp [LogClient.are_pending]
  have hmem : ∀ e ∈ s.log_queue, e.seq ≤ s.last_log := by
    intro e he
    have : e.seq ∈ seqs s.log_queue := List.mem_map_of_mem _ he
    rw [hseqs, List.mem_range'_1] at this
    omega
  have hfwd : (∃ e ∈ s.log_queue, e.seq > s.last_log_sent) → LogClient.are_pending s = true := by
    rintro ⟨e, he, hgt⟩
    have := hmem e he
    rw [hpend]; omega
  refine ⟨hpend, hfwd, fun hq => ⟨?_, hfwd⟩⟩
  intro hp
  rw [hpend] at hp
  have hne : s.log_queue.getLast? ≠ none := by simpa using hq
  obtain ⟨e, he⟩ := Option.ne_none_iff_exists'.mp hne
  have hseq : (seqs s.log_queue).getLast? = some e.seq := by
    simp [seqs, List.getLast?_map, he]
  rw [hseqs, List.getLast?_range'] at hseq
  have hpos : 0 < s.log_queue.length := List.length_pos.mpr hq
  rw [if_neg (by omega)] at hseq
  simp only [Option.some.injEq] at hseq
  exact ⟨e, List.mem_of_getLast?_eq_some he, by omega⟩

/-- C11 witness: seven entries logged, ack through 5 accepted; entries 6 and 7
are queued and unsent, and `are_pending` returns true. -/
theorem C11_are_pending_witness :
    run (LogClient.create_with false false "daemon" "info")
        (List.replicate 7 (log_op 3) ++ [Op.ack (cfg_cap 3) ⟨"local0", 5⟩]) =
      .ok (state_with [6, 7] 0 7, List.map logged_at [1, 2, 3, 4, 5, 6, 7] ++ [Event.acked true]) ∧
    (state_with [6, 7] 0 7).log_queue ≠ [] ∧
    (LogClient.are_pending (state_with [6, 7] 0 7) = true ↔
      ∃ e ∈ (state_with [6, 7] 0 7).log_queue, e.seq > (state_with [6, 7] 0 7).last_log_sent) :=
  ⟨rfl, by decide,
    (C11_are_pending_iff_unsent_queued false false "daemon" "info"
      (List.replicate 7 (log_op 3) ++ [Op.ack (cfg_cap 3) ⟨"local0", 5⟩])
      (state_with [6, 7] 0 7)
      (List.map logged_at [1, 2, 3, 4, 5, 6, 7] ++ [Event.acked true])
      rfl (by decide) (by decide)).2.2 (by decide)⟩

/-- C12 (self-addressed loopback, evaluated on the code): on a fresh
self-addressed client with monitor delivery on, the first `log()` call hands
the messenger the batch [entry 1], and the second `log()` call, which appends
entry 2, hands it the batch [entry 1] again instead of [entry 2];
`last_log_sent` stays at 1.  The scan loop restarts at the entry sent last. -/
theorem C12_second_loopback_resends_first_entry :
    run fresh_mon [log_mon, log_mon] =
      .ok (mon_state_with [1, 2] 1 2,
        [.logged ⟨entry_at 1, false, some (.MLog [entry_at 1])⟩,
         .logged ⟨entry_at 2, false, some (.MLog [entry_at 1])⟩]) := by
  rfl

/-- C13 (acknowledgments are never fatal, evaluated on the code): two entries
are logged and drained, the session is reset (`last_log_sent` rewinds to 0),
and a stale ack through seq 1 from the old session is then accepted.  It
erases entry 1, leaving entry 2 queued with `last_log = 2` and
`last_log_sent = 0`; the next drain computes `num_unsent = 2`, more than the
one queued entry, and trips `assert(num_unsent <= log_queue.size())`: the
process aborts. -/
theorem C13_stale_ack_after_reset_trips_assertion :
    run fresh_osd
        [log_op 3, log_op 3, Op.drain (cfg_cap 3), Op.reset,
          Op.ack (cfg_cap 3) ⟨"local0", 1⟩] =
      .ok (state_with [2] 0 2,
        [logged_at 1, logged_at 2, .drained (.MLog [entry_at 1, entry_at 2]), Event.reset,
          Event.acked true]) ∧
    LogClient.get_mon_log_message (cfg_cap 3) (state_with [2] 0 2) =
      .abort .num_unsent_exceeds_queue :=
  ⟨rfl, rfl⟩

/-- C14 (line splitting): for every severity and text, the stream form of
`do_log` terminates and does exactly what one single-line `do_log` call per
non-empty newline-separated line of the text does, in order.  No line is empty
or contains a newline; a text without a non-empty line leaves the state
unchanged; on a client that is not self-addressed the call always returns;
and when it returns, the created entries carry the lines as messages, the
given severity and the consecutive seqs `last_log + 1, ...`, `last_log` has
advanced by the number of non-empty lines, and the entries were appended to
the queue in order when monitor delivery is on (the queue is untouched when
it is off).  The seq part is stated for `last_log + lines < 2^64`. -/
theorem C14_stream_log_splits_lines (cfg : Config) (envs : Nat → Env) (s : LogClient) (prio : clog_type)
    (text : String) :
    LogClient.do_log_stream cfg envs s prio text =
      some (LogClient.do_log_each cfg envs prio 0 s (nonempty_lines text) []) ∧
    (∀ l ∈ nonempty_lines text, l ≠ "" ∧ '\n' ∉ l.data) ∧
    (nonempty_lines text = [] →
      LogClient.do_log_stream cfg envs s prio text = some (.ok (s, []))) ∧
    (s.is_mon = false →
      ∃ s1 outs, LogClient.do_log_stream cfg envs s prio text = some (.ok (s1, outs))) ∧
    (∀ s1 outs, LogClient.do_log_stream cfg envs s prio text = some (.ok (s1, outs)) →
      s.last_log + (nonempty_lines text).length < 2 ^ 64 →
      outs.map (fun o => o.entry.msg) = nonempty_lines text ∧
      outs.map (fun o => o.entry.seq) =
        List.range' (s.last_log + 1) (nonempty_lines text).length ∧
      (∀ o ∈ outs, o.entry.prio = prio) ∧
      s1.last_log = s.last_log + (nonempty_lines text).length ∧
      s1.log_queue =
        (if cfg.clog_to_monitors then s.log_queue ++ outs.map (fun o => o.entry)
         else s.log_queue)) := by
  have heq : LogClient.do_log_stream cfg envs s prio text =
      some (LogClient.do_log_each cfg envs prio 0 s (nonempty_lines text) []) := by
    unfold LogClient.do_log_stream nonempty_lines
    exact do_log_loop_eq cfg envs prio _ 0 text.data s [] (Nat.lt_succ_self _)
  refine ⟨heq, nonempty_lines_spec text, ?_, ?_, ?_⟩
  · intro h
    rw [heq, h]
    rfl
  · intro hm
    obtain ⟨s1, outs, h⟩ := do_log_each_total cfg envs prio (nonempty_lines text) 0 s [] hm
    exact ⟨s1, outs, by rw [heq, h]⟩
  · intro s1 outs h hb
    rw [heq] at h
    simp only [Option.some.injEq] at h
    obtain ⟨new, h1, h2, h3, h4, h5, h6⟩ :=
      do_log_each_spec cfg envs prio _ 0 s s1 [] outs h (by simpa [U64] using hb)
    simp only [List.nil_append] at h1
    subst h1
    exact ⟨h2, h3, h4, h5, h6⟩

/-- C14 witness: the text "a", empty line, "bc" with a trailing newline gives
two entries, "a" with seq 1 and "bc" with seq 2. -/
theorem C14_stream_log_witness :
    LogClient.do_log_stream (cfg_cap 3) (fun _ => env_osd) fresh_osd .CLOG_ERROR "a\n\nbc\n" =
      some (.ok
        ({ state_with [] 0 2 with
            log_queue := [{ entry_at 1 with prio := .CLOG_ERROR, msg := "a" },
              { entry_at 2 with prio := .CLOG_ERROR, msg := "bc" }] },
         [⟨{ entry_at 1 with prio := .CLOG_ERROR, msg := "a" }, false, none⟩,
          ⟨{ entry_at 2 with prio := .CLOG_ERROR, msg := "bc" }, false, none⟩])) ∧
    nonempty_lines "a\n\nbc\n" = ["a", "bc"] ∧
    List.map (fun o : LogClient.LogOut => o.entry.msg)
        [⟨{ entry_at 1 with prio := .CLOG_ERROR, msg := "a" }, false, none⟩,
         ⟨{ entry_at 2 with prio := .CLOG_ERROR, msg := "bc" }, false, none⟩] =
      nonempty_lines "a\n\nbc\n" :=
  ⟨rfl, rfl,
    ((C14_stream_log_splits_lines (cfg_cap 3) (fun _ => env_osd) fresh_osd .CLOG_ERROR
        "a\n\nbc\n").2.2.2.2 _ _ rfl (by decide)).1⟩

/-- C15 (batch contents, evaluated on the code): with entries 1, 2, 3 queued,
`last_log_sent = 1`, `last_log = 3` and cap 2, the drain returns the batch
[1, 2] and sets `last_log_sent = 2`; the claim requires the batch [2, 3],
which starts at the first entry with seq greater than 1 and contains no entry
with seq at most 1. -/
theorem C15_batch_starts_at_last_sent :
    LogClient._get_mon_log_message (cfg_cap 2) (state_with [1, 2, 3] 1 3) =
      .ok (.MLog (List.map entry_at [1, 2]), state_with [1, 2, 3] 2 3) := by
  rfl

/-- C16 (result-conditioned effect of the acknowledgment): for every
configuration, state and ack, if `handle_log_ack` returns true the new state
is the old one with the longest prefix of queue entries having
`seq <= last` removed (counters and everything else unchanged; an ack beyond
the newest queued seq empties the queue), and if it returns false the state
is unchanged. -/
theorem C16_handle_log_ack_effect (cfg : Config) (s : LogClient) (m : MLogAck) :
    (LogClient.handle_log_ack cfg s m).2 =
      if (LogClient.handle_log_ack cfg s m).1 = true then
        { s with log_queue := s.log_queue.dropWhile (fun e => decide (e.seq ≤ m.last)) }
      else s := by
  unfold LogClient.handle_log_ack
  simp only
  by_cases hf : (if m.facility = "" then cfg.clog_to_syslog_facility else m.facility) =
      LogClient.get_log_facility s
  · rw [if_pos hf]; simp
  · rw [if_neg hf]; simp [erase_acked_eq_dropWhile]

/-- C17 (queue order): in every state reached from a fresh client by a run of
`log()` calls (monitor delivery on or off at each call), drains, acks and
session resets, the queued seqs are strictly increasing from head to tail and
none exceeds `last_log`; and every further call leaves the queue as it is,
removes entries at its head, or adds one entry at its tail, never both.
Stated for runs with fewer than `2^64` `log()` calls. -/
theorem C17_queue_strictly_increasing (flag_mon b : Bool) (fac lvl : String)
    (ops : List Op) (s : LogClient) (evs : List Event)
    (hrun : run (LogClient.create_with flag_mon b fac lvl) ops = .ok (s, evs))
    (hlogs : num_logs ops < 2 ^ 64) :
    StrictlyIncreasing s.log_queue ∧
    (∀ e ∈ s.log_queue, e.seq ≤ s.last_log) ∧
    (∀ (op : Op) (s1 : LogClient) (ev : Event), step s op = .ok (s1, ev) →
      ∃ (k : Nat) (added : List LogEntry),
        s1.log_queue = s.log_queue.drop k ++ added ∧ (k = 0 ∨ added = []) ∧
        added.length ≤ 1) := by
  have hb : (LogClient.create_with flag_mon b fac lvl).last_log + num_logs ops < U64 := by
    simp only [LogClient.create_with, U64, Nat.zero_add]; exact hlogs
  obtain ⟨h1, h2⟩ := run_increasing ops _ s evs hrun hb
    (by simp [StrictlyIncreasing, seqs, LogClient.create_with])
    (by simp [LogClient.create_with])
  refine ⟨h1, h2, ?_⟩
  intro op s1 ev hstep
  obtain ⟨k, added, hq, hk, hlen, -⟩ := step_queue_shape s s1 op ev hstep
  exact ⟨k, added, hq, hk, hlen⟩

/-- C17 witness: three `log()` calls, the second with monitor delivery off,
then an accepted ack through 1, leave the single entry 3 queued. -/
theorem C17_queue_strictly_increasing_witness :
    run (LogClient.create_with false false "daemon" "info")
        [log_op 3, Op.log cfg_off env_osd .CLOG_INFO "event", log_op 3,
          Op.ack (cfg_cap 3) ⟨"local0", 1⟩] =
      .ok (state_with [3] 0 3, [logged_at 1, logged_at 2, logged_at 3, Event.acked true]) ∧
    StrictlyIncreasing (state_with [3] 0 3).log_queue ∧
    (∀ e ∈ (state_with [3] 0 3).log_queue, e.seq ≤ (state_with [3] 0 3).last_log) :=
  ⟨rfl,
    (C17_queue_strictly_increasing false false "daemon" "info"
      [log_op 3, Op.log cfg_off env_osd .CLOG_INFO "event", log_op 3,
        Op.ack (cfg_cap 3) ⟨"local0", 1⟩]
      (state_with [3] 0 3) [logged_at 1, logged_at 2, logged_at 3, Event.acked true]
      rfl (by decide)).1,
    (C17_queue_strictly_increasing false false "daemon" "info"
      [log_op 3, Op.log cfg_off env_osd .CLOG_INFO "event", log_op 3,
        Op.ack (cfg_cap 3) ⟨"local0", 1⟩]
      (state_with [3] 0 3) [logged_at 1, logged_at 2, logged_at 3, Event.acked true]
      rfl (by decide)).2.1⟩

/-- C18 (no gaps in the middle of the queue, evaluated on the code): three
`log()` calls on a fresh client, the second made while monitor delivery is
disabled, leave the entries with seqs 1 and 3 in the queue: `last_log` was
incremented for seq 2 but the entry was never queued, a gap in the middle.
The counters no longer match the queue: the next drain computes
`num_unsent = 3`, more than the two queued entries, and trips
`assert(num_unsent <= log_queue.size())`. -/
theorem C18_gap_when_delivery_disabled :
    run fresh_osd [log_op 3, Op.log cfg_off env_osd .CLOG_INFO "event", log_op 3] =
      .ok (state_with [1, 3] 0 3, [logged_at 1, logged_at 2, logged_at 3]) ∧
    ¬ NoGaps (state_with [1, 3] 0 3).log_queue ∧
    LogClient.get_mon_log_message (cfg_cap 3) (state_with [1, 3] 0 3) =
      .abort .num_unsent_exceeds_queue :=
  ⟨rfl, by simp [NoGaps, state_with, entry_at], rfl⟩

/-- C19 counterexample: the state with the single entry of seq 0 queued and
`last_log = last_log_sent = 0` satisfies W, but `reset_session` computes
`0 - 1` in unsigned 64-bit arithmetic and sets `last_log_sent = 2^64 - 1`,
which is greater than `last_log`: W is not preserved. -/
theorem C19_reset_breaks_window_at_seq_zero :
    Window (state_with [0] 0 0) ∧ ¬ Window (LogClient.reset_session (state_with [0] 0 0)) :=
  ⟨by decide, by decide⟩

/-- C19 (amended): W together with "the queue is no longer than `last_log`"
(the oldest queued seq is at least 1) holds for the fresh client; in every
state satisfying W the drain returns (none of its three assertions trips) and
keeps W; and from every state satisfying the strengthened W with
`last_log < 2^64 - 1`, the strengthened W is kept by a `log()` call with
monitor delivery enabled (which returns whenever the client is not
self-addressed or the messenger's name is a monitor's), by the drain, by
`reset_session`, and by every ack that is rejected or whose `last` is at most
`last_log_sent` at the time of the call. -/
theorem C19_window_envelope :
    (∀ (flag_mon b : Bool) (fac lvl : String),
      Window1 (LogClient.create_with flag_mon b fac lvl)) ∧
    (∀ (s : LogClient) (cfg : Config), Window s →
      ∃ (m : Message) (s1 : LogClient),
        LogClient.get_mon_log_message cfg s = .ok (m, s1) ∧ Window s1) ∧
    (∀ s : LogClient, Window1 s → s.last_log + 1 < 2 ^ 64 →
      (∀ (cfg : Config) (env : Env) (prio : clog_type) (msg : String),
        cfg.clog_to_monitors = true →
        (∀ s1 out, LogClient.do_log cfg env s prio msg = .ok (s1, out) → Window1 s1) ∧
        ((s.is_mon = false ∨ env.myname_is_mon = true) →
          ∃ s1 out, LogClient.do_log cfg env s prio msg = .ok (s1, out))) ∧
      (∀ cfg : Config, ∃ (m : Message) (s1 : LogClient),
        LogClient.get_mon_log_message cfg s = .ok (m, s1) ∧ Window1 s1) ∧
      Window1 (LogClient.reset_session s) ∧
      (∀ (cfg : Config) (m : MLogAck),
        ((LogClient.handle_log_ack cfg s m).1 = false ∨ m.last ≤ s.last_log_sent) →
        Window1 (LogClient.handle_log_ack cfg s m).2)) := by
  refine ⟨window1_create_with, ?_, ?_⟩
  · intro s cfg hW
    obtain ⟨m, s1, hd, hW1, -⟩ := window_drain cfg s hW
    exact ⟨m, s1, hd, hW1⟩
  · intro s hinv hL
    obtain ⟨hW, hlen⟩ := hinv
    refine ⟨?_, ?_, ?_, ?_⟩
    · intro cfg env prio msg hmon
      refine ⟨?_, ?_⟩
      · intro s1 out h
        exact window_do_log cfg env s s1 prio msg out h hmon hW hlen hL
      · intro henv
        exact do_log_returns cfg env s prio msg hmon hW hlen hL henv
    · intro cfg
      obtain ⟨m, s1, hd, hW1, hq, hLL, -⟩ := window_drain cfg s hW
      exact ⟨m, s1, hd, hW1, by rw [hq, hLL]; exact hlen⟩
    · exact ⟨window_reset s hW hlen (by omega), hlen⟩
    · intro cfg m hin
      obtain ⟨h1, h2, -⟩ := ack_length_le cfg s m
      exact ⟨window_ack cfg s m hW hin, by rw [h2]; omega⟩

/-- C19 witness: with entries 2 and 3 queued and both sent, the strengthened
W holds, and it still holds after `reset_session`, which rewinds
`last_log_sent` to 1. -/
theorem C19_window_envelope_witness :
    Window1 (state_with [2, 3] 3 3) ∧
    (state_with [2, 3] 3 3).last_log + 1 < 2 ^ 64 ∧
    Window1 (LogClient.reset_session (state_with [2, 3] 3 3)) :=
  ⟨by decide, by decide,
    (C19_window_envelope.2.2 (state_with [2, 3] 3 3) (by decide) (by decide)).2.2.1⟩

/-- C20 (the drain never skips and never rewinds): in every state satisfying
the window invariant with `last_log_sent < last_log`, the drain returns a
non-empty batch whose seqs are consecutive, whose first seq is at most the old
`last_log_sent + 1`, whose last seq is the new `last_log_sent`, and the new
`last_log_sent` is at least the old one; every queued entry whose seq lies
above the old and at most at the new `last_log_sent` is in the batch, so
nothing up to the new `last_log_sent` is skipped.  Stated for
`last_log - last_log_sent < 2^32`, the range of the 32-bit `num_unsent`. -/
theorem C20_drain_never_skips_never_rewinds (cfg : Config) (s : LogClient) (hW : Window s)
    (hlt : s.last_log_sent < s.last_log) (hfit : s.last_log - s.last_log_sent < 2 ^ 32) :
    ∃ (batch : List LogEntry) (s1 : LogClient),
      LogClient._get_mon_log_message cfg s = .ok (.MLog batch, s1) ∧
      batch ≠ [] ∧ NoGaps batch ∧
      (∀ e ∈ batch.head?, e.seq ≤ s.last_log_sent + 1) ∧
      (∀ e ∈ batch.getLast?, e.seq = s1.last_log_sent) ∧
      s.last_log_sent ≤ s1.last_log_sent ∧
      (∀ e ∈ s.log_queue, s.last_log_sent < e.seq → e.seq ≤ s1.last_log_sent → e ∈ batch) := by
  have hq : s.log_queue ≠ [] := fun h => by have := hW.2.2.2 h; omega
  have hne : s.last_log_sent ≠ s.last_log := by omega
  obtain ⟨batch, hbatch, hseqs, hbound, ha, hrun⟩ :=
    drain_wellformed_seqs cfg s (window_wellformed s hW) hq hne
  have hun := LogClient.num_unsent_eq s hW.2.1 hfit
  have hn : 0 < LogClient.num_send cfg s := by
    unfold LogClient.num_send
    rw [hun]
    split
    · exact lt_min (by omega) (by omega)
    · omega
  have hlen : batch.length = LogClient.num_send cfg s := by
    have := congrArg List.length hseqs
    simpa [seqs] using this
  have hlast := last_seq_of_range batch _ _ s.last_log_sent hseqs
  rw [if_neg (by omega)] at hlast
  have hbne : batch ≠ [] := by
    intro h; rw [h] at hlen; simp at hlen; omega
  refine ⟨batch, _, hrun, hbne, ?_, ?_, ?_, ?_, ?_⟩
  · exact no_gaps_of_range batch _ (by rw [hlen]; exact hseqs)
  · intro e he
    obtain ⟨e1, rest, hb⟩ := List.exists_cons_of_ne_nil hbne
    rw [hb] at he
    simp only [List.head?_cons, Option.mem_def, Option.some.injEq] at he
    subst he
    have hs2 : seqs (e1 :: rest) = List.range'
        (s.last_log + 1 - s.log_queue.length +
          (s.last_log_sent - (s.last_log + 1 - s.log_queue.length))) (e1 :: rest).length := by
      rw [← hb, hlen]; exact hseqs
    have := LogClient.head_seq_of_consecutive e1 rest _ hs2
    omega
  · intro e he
    simp only [Option.mem_def] at he
    simp [he]
  · simp only
    rw [hlast]; omega
  · intro e he h1 h2
    simp only at h2
    rw [hlast] at h2
    obtain ⟨j, hj, rfl⟩ := List.getElem_of_mem he
    have hsj := seq_of_index s.log_queue _ hW.1.2 j hj
    rw [hbatch]
    exact mem_take_drop_of_index _ _ _ j hj (by omega) (by omega)

/-- C20 witness: entries 1, 2, 3 queued, entry 1 sent, cap 2. -/
theorem C20_drain_never_skips_witness :
    Window (state_with [1, 2, 3] 1 3) ∧
    ∃ (batch : List LogEntry) (s1 : LogClient),
      LogClient._get_mon_log_message (cfg_cap 2) (state_with [1, 2, 3] 1 3) =
        .ok (.MLog batch, s1) ∧
      batch ≠ [] ∧ NoGaps batch ∧
      (∀ e ∈ batch.head?, e.seq ≤ (state_with [1, 2, 3] 1 3).last_log_sent + 1) ∧
      (∀ e ∈ batch.getLast?, e.seq = s1.last_log_sent) ∧
      (state_with [1, 2, 3] 1 3).last_log_sent ≤ s1.last_log_sent ∧
      (∀ e ∈ (state_with [1, 2, 3] 1 3).log_queue,
        (state_with [1, 2, 3] 1 3).last_log_sent < e.seq → e.seq ≤ s1.last_log_sent →
          e ∈ batch) :=
  ⟨by decide,
    C20_drain_never_skips_never_rewinds (cfg_cap 2) (state_with [1, 2, 3] 1 3)
      (by decide) (by decide) (by decide)⟩
